import Mathlib

/-!
Verification of the fs_image compiler core (path normalization, item model,
phase scheduling, protected paths) against its Python sources.

The Python code in `fs_image/compiler/items.py` and `fs_image/subvol_utils.py`
is embedded shallowly: strings are Lean `String`s, `os.path` helpers
(`normpath`, `join`, `dirname`, `basename`, `relpath`) are translated
function-by-function from CPython's `posixpath`, and fallible construction
returns `Except`.
-/

namespace FsImage

/-- The `'/'` character, used as the POSIX path separator. -/
def sep : Char := '/'

/-- The component `".."`, as a list of characters. -/
def dotdot : List Char := ['.', '.']

/-- The component `"."`, as a list of characters. -/
def dotComp : List Char := ['.']

/-- Auxiliary for `splitSlash`: Python's `str.split('/')`, accumulating the
current component in reverse. -/
def splitSlashAux : List Char → List Char → List (List Char)
  | [], acc => [acc.reverse]
  | c :: cs, acc =>
    if c = sep then acc.reverse :: splitSlashAux cs []
    else splitSlashAux cs (c :: acc)

/-- Python's `path.split('/')`: splits on every `'/'`, keeping empty
components. -/
def splitSlash (cs : List Char) : List (List Char) := splitSlashAux cs []

/-- Python's `'/'.join(comps)` (components interleaved with single slashes). -/
def joinSlash : List (List Char) → List Char
  | [] => []
  | [c] => c
  | c :: rest => c ++ sep :: joinSlash rest

/-- The component-processing loop of CPython's `posixpath.normpath`:
skip `''` and `'.'`; append `'..'` only when it cannot be cancelled
(relative path with empty output, or output already ending in `'..'`);
otherwise cancel against the last output component.  `acc` holds the output
components in reverse. -/
def normComps (ini : Bool) : List (List Char) → List (List Char) → List (List Char)
  | [], acc => acc.reverse
  | comp :: rest, acc =>
    if comp = [] ∨ comp = dotComp then normComps ini rest acc
    else if comp ≠ dotdot ∨ (¬ini ∧ acc = []) ∨ (acc ≠ [] ∧ acc.head? = some dotdot) then
      normComps ini rest (comp :: acc)
    else
      match acc with
      | [] => normComps ini rest []
      | _ :: acc' => normComps ini rest acc'

/-- Number of initial slashes kept by `posixpath.normpath`: POSIX allows one
or two initial slashes, but treats three or more as one. -/
def initialSlashCount (cs : List Char) : Nat :=
  match cs with
  | '/' :: '/' :: '/' :: _ => 1
  | '/' :: '/' :: _ => 2
  | '/' :: _ => 1
  | _ => 0

/-- CPython's `posixpath.normpath` on the character list of the path. -/
def normpathData (cs : List Char) : List Char :=
  if cs = [] then dotComp
  else
    let k := initialSlashCount cs
    let comps := normComps (k ≠ 0) (splitSlash cs) []
    let path := List.replicate k sep ++ joinSlash comps
    if path = [] then dotComp else path

/-- Python's `os.path.normpath` for POSIX, on Lean strings. -/
def normpath (s : String) : String := ⟨normpathData s.data⟩

/-- Python's `str.lstrip('/')`: drop every leading slash. -/
def lstripSlashes (s : String) : String := ⟨s.data.dropWhile (· = sep)⟩

/-- Python's `str.startswith`, via list prefixes on the character data. -/
def strStartsWith (s pre : String) : Bool := pre.data.isPrefixOf s.data

/-- Python's `str.endswith`, via list suffixes on the character data. -/
def strEndsWith (s suf : String) : Bool := suf.data.isSuffixOf s.data

/-- Python's `str.rstrip('/')` on character lists. -/
def rstripSlashes (cs : List Char) : List Char :=
  (cs.reverse.dropWhile (· = sep)).reverse

/-- CPython's `posixpath.join` for exactly two arguments: if `b` starts with
`'/'` return `b`; if `a` is empty or ends with `'/'` return `a + b`;
otherwise return `a + '/' + b`. -/
def joinPath (a b : String) : String :=
  if strStartsWith b "/" then b
  else if a = "" ∨ strEndsWith a "/" then a ++ b
  else a ++ "/" ++ b

/-- CPython's `posixpath.dirname` on character lists: keep everything up to
and including the last slash, then strip trailing slashes unless the head is
empty or all slashes. -/
def dirnameData (cs : List Char) : List Char :=
  let head := (cs.reverse.dropWhile (· ≠ sep)).reverse
  if head ≠ [] ∧ head.any (· ≠ sep) then rstripSlashes head else head

/-- CPython's `posixpath.dirname` on strings. -/
def dirname (s : String) : String := ⟨dirnameData s.data⟩

/-- CPython's `posixpath.basename`: everything after the last slash. -/
def basename (s : String) : String := ⟨(s.data.reverse.takeWhile (· ≠ sep)).reverse⟩

/-- Length of the longest common initial run of two component lists, as
computed by `posixpath.relpath` via `os.path.commonprefix`. -/
def commonLen : List (List Char) → List (List Char) → Nat
  | a :: as_, b :: bs => if a = b then commonLen as_ bs + 1 else 0
  | _, _ => 0

/-- CPython's `posixpath.relpath(path, start)` for absolute `path` and
`start` (for which `abspath` reduces to `normpath`): split both normalized
paths into nonempty components, drop the common initial run, climb with
`'..'` for what remains of `start`, and append the rest of `path`. -/
def relpathAbs (path start : String) : String :=
  let pl := (splitSlash (normpath path).data).filter (· ≠ [])
  let sl := (splitSlash (normpath start).data).filter (· ≠ [])
  let i := commonLen sl pl
  let rel := List.replicate (sl.length - i) dotdot ++ pl.drop i
  if rel = [] then "." else ⟨joinSlash rel⟩

/-- The reserved metadata directory `META_DIR = 'meta/'` of `items.py`
(trailing slash: a protected directory, not a protected file). -/
def META_DIR : String := "meta/"

/-- The two failure modes of `_make_path_normal_relative` in `items.py`:
the `AssertionError` for a path escaping the image root, and the
`AssertionError` for a path inside the reserved `meta/` directory. -/
inductive NormError where
  | illegalPath
  | reservedMetaPath
deriving DecidableEq, Repr

/-- Embedding of `_make_path_normal_relative` (items.py:144-160):
`d = os.path.normpath(orig_d).lstrip('/')`; fail if `d` is `'..'` or starts
with `'../'`; fail if `d + '/'` starts with `META_DIR`; else return `d`. -/
def makePathNormalRelative (origD : String) : Except NormError String :=
  let d := lstripSlashes (normpath origD)
  if d = ".." ∨ strStartsWith d "../" then .error .illegalPath
  else if strStartsWith (d ++ "/") META_DIR then .error .reservedMetaPath
  else .ok d

/-- Embedding of `_is_path_protected` (items.py:660-670): true iff for some
protected path `prot`, `path + '/'` starts with
`prot + ('' if prot ends with '/' else '/')`. -/
def isPathProtected (path : String) (protectedPaths : List String) : Bool :=
  protectedPaths.any fun prot =>
    strStartsWith (path ++ "/") (prot ++ (if strEndsWith prot "/" then "" else "/"))

/-- The `RemovePathAction` enum of `items.py`. -/
inductive RemovePathAction where
  | assert_exists
  | if_exists
deriving DecidableEq, Repr

/-- A constructed `RemovePathItem` (fields after `customize_fields`):
its `path` has already passed `_make_path_normal_relative`. -/
structure RemovePathItem where
  path : String
  action : RemovePathAction
deriving DecidableEq, Repr

/-- Construction of `RemovePathItem`: `customize_fields`
(items.py:808-810) coerces `path` through `_make_path_normal_relative`,
failing there before the item exists. -/
def mkRemovePathItem (path : String) (action : RemovePathAction) :
    Except NormError RemovePathItem :=
  (makePathNormalRelative path).map fun p => ⟨p, action⟩

/-- The `provides()` claims of `provides.py`: a directory, a non-directory
inode, or a reserved do-not-access path. -/
inductive Provide where
  | directory (path : String)
  | file (path : String)
  | doNotAccess (path : String)
deriving DecidableEq, Repr

/-- The `requires()` claims of `requires.py`: `require_directory` and
`require_file`. -/
inductive Require where
  | directory (path : String)
  | file (path : String)
deriving DecidableEq, Repr

/-- Embedding of `_make_rsync_style_dest_path` (items.py:169-181): apply the
rsync convention (a `dest` ending in `'/'` means "into this directory", so
append `basename(source)`), then normalize. -/
def makeRsyncStyleDestPath (dest source : String) : Except NormError String :=
  makePathNormalRelative
    (if strEndsWith dest "/" then joinPath dest (basename source) else dest)

/-- A constructed `CopyFileItem` (fields after `customize_fields`). -/
structure CopyFileItem where
  source : String
  dest : String
deriving DecidableEq, Repr

/-- Construction of `CopyFileItem`: `customize_fields` (items.py:413-416)
replaces `dest` by `_make_rsync_style_dest_path(dest, source)`. -/
def mkCopyFileItem (source dest : String) : Except NormError CopyFileItem :=
  (makeRsyncStyleDestPath dest source).map fun d => ⟨source, d⟩

/-- `CopyFileItem.provides` (items.py:418-419): one `ProvidesFile` at the
stored destination. -/
def CopyFileItem.provides (i : CopyFileItem) : List Provide :=
  [.file i.dest]

/-- `CopyFileItem.requires` (items.py:421-422): one `require_directory` at
`os.path.dirname(self.dest)`. -/
def CopyFileItem.requires (i : CopyFileItem) : List Require :=
  [.directory (dirname i.dest)]

/-- A constructed `MakeDirsItem` (fields after `customize_fields`). -/
structure MakeDirsItem where
  intoDir : String
  pathToMake : String
deriving DecidableEq, Repr

/-- Construction of `MakeDirsItem`: `customize_fields` (items.py:474-476)
coerces both path fields through `_make_path_normal_relative`. -/
def mkMakeDirsItem (intoDir pathToMake : String) : Except NormError MakeDirsItem := do
  let i ← makePathNormalRelative intoDir
  let p ← makePathNormalRelative pathToMake
  .ok ⟨i, p⟩

/-- The `while inner_dir != self.into_dir` loop of `MakeDirsItem.provides`
(items.py:478-482), with explicit fuel bounding the iteration count; each
iteration yields the current path and steps to its `dirname`. -/
def makeDirsChain (intoDir : String) : Nat → String → List String
  | 0, _ => []
  | fuel + 1, inner =>
    if inner = intoDir then []
    else inner :: makeDirsChain intoDir fuel (dirname inner)

/-- `MakeDirsItem.provides` (items.py:478-482): `ProvidesDirectory` for each
path from `os.path.join(into_dir, path_to_make)` down to (excluding)
`into_dir`, stepping by `dirname`.  The fuel exceeds any possible number of
iterations of the terminating runs of the Python loop. -/
def MakeDirsItem.provides (i : MakeDirsItem) : List Provide :=
  let inner := joinPath i.intoDir i.pathToMake
  (makeDirsChain i.intoDir (inner.data.length + 1) inner).map .directory

/-- `MakeDirsItem.requires` (items.py:484-485): one `require_directory` at
`into_dir`. -/
def MakeDirsItem.requires (i : MakeDirsItem) : List Require :=
  [.directory i.intoDir]

/-- The secondary sort index of `RemovePathItem.__sort_key`
(items.py:815-822): the enumerate dict gives `if_exists` index 0 and
`assert_exists` index 1. -/
def removeActionIdx : RemovePathAction → Nat
  | .if_exists => 0
  | .assert_exists => 1

/-- Strict lexicographic comparison of character lists by code point, the
order CPython uses to compare `str` values. -/
def charListLTb : List Char → List Char → Bool
  | [], [] => false
  | [], _ :: _ => true
  | _ :: _, [] => false
  | a :: as_, b :: bs =>
    if a.toNat < b.toNat then true
    else if b.toNat < a.toNat then false
    else charListLTb as_ bs

/-- The order in which `RemovePathItem.get_phase_builder`'s builder visits
its items: `sorted(items, reverse=True, key=__sort_key)`, i.e. `a` comes no
later than `b` exactly when the key `(path, action index)` of `b` is
lexicographically at most that of `a`. -/
def removeKeyLE (a b : RemovePathItem) : Bool :=
  charListLTb b.path.data a.path.data ||
    (decide (b.path = a.path) && decide (removeActionIdx b.action ≤ removeActionIdx a.action))

/-- The `removeKeyLE` relation in propositional form. -/
def removeExecRel (a b : RemovePathItem) : Prop := removeKeyLE a b = true

instance : DecidableRel removeExecRel :=
  fun a b => (inferInstance : Decidable (removeKeyLE a b = true))

/-- The execution order of the REMOVE_PATHS phase builder
(items.py:844-846): a stable descending sort by `__sort_key`, exactly like
CPython's `sorted(..., reverse=True, key=...)` (both are stable sorts for
the same total preorder, whose ties are exactly equal keys). -/
def removePathExecutionOrder (items : List RemovePathItem) : List RemovePathItem :=
  List.insertionSort removeExecRel items

/-- The `RpmAction` enum of `items.py`. -/
inductive RpmAction where
  | install
  | remove_if_exists
deriving DecidableEq, Repr

/-- A constructed `RpmActionItem` (`fields = ['name', 'action']` plus the
metaclass-injected `from_target`). -/
structure RpmActionItem where
  fromTarget : String
  name : String
  action : RpmAction
deriving DecidableEq, Repr

/-- The `LayerOpts` named tuple of `items.py`: `yum_from_snapshot` and
`build_appliance` are optional strings. -/
structure LayerOpts where
  layerTarget : String
  yumFromSnapshot : Option String
  buildAppliance : Option String
deriving DecidableEq, Repr

/-- The validity condition asserted by `RpmActionItem.get_phase_builder`
(items.py:920-929): `yum_from_snapshot` or `build_appliance` is set, and not
both. -/
def validLayerOpts (opts : LayerOpts) : Prop :=
  (opts.yumFromSnapshot.isSome ∨ opts.buildAppliance.isSome) ∧
    (opts.yumFromSnapshot.isNone ∨ opts.buildAppliance.isNone)

instance (opts : LayerOpts) : Decidable (validLayerOpts opts) := by
  unfold validLayerOpts; infer_instance

/-- The duplicate-package scan of `RpmActionItem.get_phase_builder`
(items.py:931-943): walking the items in order, `rpm_to_actions` gains one
entry per item, and the factory raises at the first item whose `name` was
seen before — regardless of the actions involved. -/
def rpmFindConflict : List RpmActionItem → List String → Option String
  | [], _ => none
  | i :: rest, seen =>
    if i.name ∈ seen then some i.name else rpmFindConflict rest (i.name :: seen)

/-- Errors of `RpmActionItem.get_phase_builder` before it returns a builder:
the two `assert`s on layer options, and the `RuntimeError` for an RPM action
conflict. -/
inductive RpmFactoryError where
  | badLayerOpts
  | actionConflict (name : String)
deriving DecidableEq, Repr

/-- Embedding of `RpmActionItem.get_phase_builder` (items.py:914-943): check
the layer options, scan the items for a package named by more than one item,
and only then return the builder.  The returned value is the data the
builder closes over: the `install` and `remove_if_exists` name buckets of
`action_to_rpms`. -/
def rpmGetPhaseBuilder (items : List RpmActionItem) (opts : LayerOpts) :
    Except RpmFactoryError (List String × List String) :=
  if ¬(opts.yumFromSnapshot.isSome ∨ opts.buildAppliance.isSome) then .error .badLayerOpts
  else if ¬(opts.yumFromSnapshot.isNone ∨ opts.buildAppliance.isNone) then .error .badLayerOpts
  else
    match rpmFindConflict items [] with
    | some n => .error (.actionConflict n)
    | none =>
      .ok ((items.filter (fun i => i.action = RpmAction.install)).map (fun i => i.name),
        (items.filter (fun i => i.action = RpmAction.remove_if_exists)).map (fun i => i.name))

/-- Embedding of `Subvol.path` (subvol_utils.py:92-141).  `realpath` stands
for `os.path.realpath`, i.e. symlink resolution by the filesystem, passed in
as an oracle; `svRoot` is the absolute `self._path`.  The joined path is
normalized, its symlink-resolved location is computed (resolving every
component, or every component except the last under `no_dereference_leaf`),
and the call fails exactly when that location, made relative to the resolved
subvolume root, is `'..'` or starts with `'../'`. -/
def subvolResultPath (svRoot pIn : String) : String :=
  normpath (joinPath svRoot (lstripSlashes pIn))

/-- The symlink-resolved location computed by `Subvol.path`
(subvol_utils.py:133-138): every component resolved, or every component
except the last under `no_dereference_leaf`. -/
def subvolResolved (realpath : String → String) (svRoot pIn : String)
    (noDerefLeaf : Bool) : String :=
  if noDerefLeaf then
    joinPath (realpath (dirname (subvolResultPath svRoot pIn)))
      (basename (subvolResultPath svRoot pIn))
  else realpath (subvolResultPath svRoot pIn)

/-- The `root_relative` value of `Subvol.path`: the resolved location made
relative to the resolved subvolume root. -/
def subvolRootRelative (realpath : String → String) (svRoot pIn : String)
    (noDerefLeaf : Bool) : String :=
  relpathAbs (subvolResolved realpath svRoot pIn noDerefLeaf) (realpath svRoot)

/-- The body of `Subvol.path` (continued): raise exactly when
`root_relative` starts with `'../'` or equals `'..'`; otherwise return the
unresolved `result_path`. -/
def subvolPath (realpath : String → String) (svRoot pIn : String)
    (noDerefLeaf : Bool) : Except Unit String :=
  let rootRelative := subvolRootRelative realpath svRoot pIn noDerefLeaf
  if strStartsWith rootRelative "../" ∨ rootRelative = ".." then .error ()
  else .ok (subvolResultPath svRoot pIn)

/-- The `PhaseOrder` enum of `items.py` (lines 47-107): phases are executed
in the order listed there. -/
inductive PhaseOrder where
  | PARENT_LAYER
  | RPM_REMOVE
  | RPM_INSTALL
  | REMOVE_PATHS
deriving DecidableEq, Repr

/-- The `enum.auto()` ordinal of each `PhaseOrder` member. -/
def PhaseOrder.ord : PhaseOrder → Nat
  | .PARENT_LAYER => 1
  | .RPM_REMOVE => 2
  | .RPM_INSTALL => 3
  | .REMOVE_PATHS => 4

/-- The `PhaseOrder` members in declaration order. -/
def allPhases : List PhaseOrder :=
  [.PARENT_LAYER, .RPM_REMOVE, .RPM_INSTALL, .REMOVE_PATHS]

/-- The item variants of `items.py`, as a closed sum; each constructor keeps
the fields relevant to phase scheduling. -/
inductive AnyItem where
  | filesystemRoot (fromTarget : String)
  | parentLayer (fromTarget : String) (path : String)
  | makeDirs (fromTarget : String) (item : MakeDirsItem)
  | copyFile (fromTarget : String) (item : CopyFileItem)
  | symlinkToDir (fromTarget : String) (source dest : String)
  | symlinkToFile (fromTarget : String) (source dest : String)
  | tarball (fromTarget : String) (intoDir tarballPath : String)
  | mount (fromTarget : String) (mountpoint : String)
  | removePath (fromTarget : String) (item : RemovePathItem)
  | rpmAction (item : RpmActionItem)
deriving DecidableEq, Repr

/-- The `phase_order` methods of `items.py`: the metaclass default is
`None`; `ParentLayerItem` and `FilesystemRootItem` return `PARENT_LAYER`
(lines 682-683, 759-760), `RemovePathItem` returns `REMOVE_PATHS`
(lines 812-813), and `RpmActionItem` maps `install` to `RPM_INSTALL` and
`remove_if_exists` to `RPM_REMOVE` (lines 908-912). -/
def AnyItem.phaseOrder : AnyItem → Option PhaseOrder
  | .filesystemRoot _ => some .PARENT_LAYER
  | .parentLayer _ _ => some .PARENT_LAYER
  | .removePath _ _ => some .REMOVE_PATHS
  | .rpmAction i =>
    some (match i.action with
      | .install => .RPM_INSTALL
      | .remove_if_exists => .RPM_REMOVE)
  | _ => none

/-- The items of one phase, in input order. -/
def phaseBucket (items : List AnyItem) (ph : PhaseOrder) : List AnyItem :=
  items.filter fun i => i.phaseOrder = some ph

/-- The additive items: those whose `phase_order()` is `None`. -/
def additiveItems (items : List AnyItem) : List AnyItem :=
  items.filter fun i => i.phaseOrder = none

/-- One element of the compiler's emitted build plan: a phase builder (a
per-phase factory invoked with every item of that phase), or one additive
item. -/
inductive Emitted where
  | phaseBuilder (ph : PhaseOrder) (items : List AnyItem)
  | additive (item : AnyItem)
deriving DecidableEq, Repr

/-- Scheduling failure: zero or more than one `PARENT_LAYER` item. -/
inductive SchedError where
  | ambiguousParent
deriving DecidableEq, Repr

/-- Modelled from the spec: `DependencyGraph.ordered_phases` (the module
`compiler/dep_graph.py` is not among the sources; only its tests and the
`PhaseOrder` enum are).  Per spec section 4.D the scheduler partitions items
by `phase_order()`, asserts exactly one `PARENT_LAYER` item, and yields the
phases in the fixed ordinal order of the `Phase` enum, omitting empty
phases, each phase builder receiving all items of that phase in bulk. -/
def orderedPhases (items : List AnyItem) :
    Except SchedError (List (PhaseOrder × List AnyItem)) :=
  if (phaseBucket items .PARENT_LAYER).length = 1 then
    .ok (allPhases.filterMap fun ph =>
      if (phaseBucket items ph).isEmpty then none else some (ph, phaseBucket items ph))
  else .error .ambiguousParent

/-- Modelled from the spec: the plan driver (spec section 4.H) emits the
phase builders from `ordered_phases` first and every additive item after
them. -/
def compilePlan (items : List AnyItem) : Except SchedError (List Emitted) :=
  (orderedPhases items).map fun phases =>
    phases.map (fun p => Emitted.phaseBuilder p.1 p.2) ++
      (additiveItems items).map .additive

/-- A normal path component: nonempty, not `'.'`, not `'..'`, and
slash-free. -/
def cleanComp (c : List Char) : Prop :=
  c ≠ [] ∧ c ≠ dotComp ∧ c ≠ dotdot ∧ sep ∉ c

/-- The depth walk of the claim's phrase "`..` components resolving above
the image root": process the components left to right with a directory
depth, ignoring `''` and `'.'`; `'..'` at depth 0 escapes, otherwise it pops
one level; any other component pushes one level. -/
def escapesAux : List (List Char) → Nat → Bool
  | [], _ => false
  | c :: rest, depth =>
    if c = [] ∨ c = dotComp then escapesAux rest depth
    else if c = dotdot then (if depth = 0 then true else escapesAux rest (depth - 1))
    else escapesAux rest (depth + 1)

/-- Whether the `'..'` components of `p`, read image-relatively, resolve
above the image root. -/
def escapesRoot (p : String) : Bool := escapesAux (splitSlash p.data) 0

/-- The claim's "every intermediate directory from the normalized join of
`into_dir` and `path_to_make` up to, but not including, `into_dir`", stated
from the spec's words: for `path_to_make` with components `c1..ck`, the
directories `into_dir/c1/../ck`, …, `into_dir/c1`, deepest first. -/
def specIntermediateDirs (intoDir ptm : String) : List String :=
  (List.range (splitSlash ptm.data).length).reverse.map
    (fun j => joinPath intoDir ⟨joinSlash ((splitSlash ptm.data).take (j + 1))⟩)

/-- Unfolding of `charListLTb` on two cons cells. -/
theorem charListLTb_cons_iff (x y : Char) (xs ys : List Char) :
    charListLTb (x :: xs) (y :: ys) = true ↔
      x.toNat < y.toNat ∨ (x.toNat = y.toNat ∧ charListLTb xs ys = true) := by
  simp only [charListLTb]
  by_cases h1 : x.toNat < y.toNat
  · rw [if_pos h1]
    simp [h1]
  · rw [if_neg h1]
    by_cases h2 : y.toNat < x.toNat
    · rw [if_pos h2]
      constructor
      · intro hf
        exact absurd hf (by simp)
      · rintro (hlt | ⟨heq, _⟩) <;> (exfalso; omega)
    · rw [if_neg h2]
      constructor
      · intro ht
        exact Or.inr ⟨by omega, ht⟩
      · rintro (hlt | ⟨_, ht⟩)
        · exact absurd hlt h1
        · exact ht

/-- Transitivity of the strict lexicographic comparison. -/
theorem charListLTb_trans : ∀ a b c : List Char,
    charListLTb a b = true → charListLTb b c = true → charListLTb a c = true := by
  intro a
  induction a with
  | nil =>
    intro b c hab hbc
    cases b with
    | nil => simp [charListLTb] at hab
    | cons y ys =>
      cases c with
      | nil => simp [charListLTb] at hbc
      | cons z zs => simp [charListLTb]
  | cons x xs ih =>
    intro b c hab hbc
    cases b with
    | nil => simp [charListLTb] at hab
    | cons y ys =>
      cases c with
      | nil => simp [charListLTb] at hbc
      | cons z zs =>
        rw [charListLTb_cons_iff] at hab hbc ⊢
        rcases hab with h1 | ⟨h1, t1⟩ <;> rcases hbc with h2 | ⟨h2, t2⟩
        · exact Or.inl (by omega)
        · exact Or.inl (by omega)
        · exact Or.inl (by omega)
        · exact Or.inr ⟨by omega, ih ys zs t1 t2⟩

/-- Two character lists neither of which lexicographically precedes the
other are equal. -/
theorem charListLTb_connex : ∀ a b : List Char,
    charListLTb a b = false → charListLTb b a = false → a = b := by
  intro a
  induction a with
  | nil =>
    intro b hab _
    cases b with
    | nil => rfl
    | cons y ys => simp [charListLTb] at hab
  | cons x xs ih =>
    intro b hab hba
    cases b with
    | nil => simp [charListLTb] at hba
    | cons y ys =>
      have hab' : ¬(x.toNat < y.toNat ∨ (x.toNat = y.toNat ∧ charListLTb xs ys = true)) := by
        rw [← charListLTb_cons_iff]
        simp [hab]
      have hba' : ¬(y.toNat < x.toNat ∨ (y.toNat = x.toNat ∧ charListLTb ys xs = true)) := by
        rw [← charListLTb_cons_iff]
        simp [hba]
      push_neg at hab' hba'
      have hxy : x.toNat = y.toNat := by omega
      have hx : x = y := Char.ext (UInt32.toNat.inj hxy)
      have hts : xs = ys := by
        refine ih ys ?_ ?_
        · have := hab'.2 hxy
          simpa using this
        · have := hba'.2 hxy.symm
          simpa using this
      rw [hx, hts]

instance : IsTotal RemovePathItem removeExecRel := by
  constructor
  intro a b
  unfold removeExecRel removeKeyLE
  by_cases hab : charListLTb a.path.data b.path.data = true
  · right
    simp [hab]
  · by_cases hba : charListLTb b.path.data a.path.data = true
    · left
      simp [hba]
    · have he : b.path = a.path := by
        apply String.ext
        exact charListLTb_connex b.path.data a.path.data
          (by revert hba; cases charListLTb b.path.data a.path.data <;> simp)
          (by revert hab; cases charListLTb a.path.data b.path.data <;> simp)
      rcases Nat.le_total (removeActionIdx b.action) (removeActionIdx a.action) with hn | hn
      · left
        simp [he, hn]
      · right
        simp [he.symm, hn]

instance : IsTrans RemovePathItem removeExecRel := by
  constructor
  intro a b c hab hbc
  unfold removeExecRel removeKeyLE at hab hbc ⊢
  simp only [Bool.or_eq_true, Bool.and_eq_true, decide_eq_true_eq] at hab hbc ⊢
  rcases hab with h1 | ⟨h1, h1n⟩ <;> rcases hbc with h2 | ⟨h2, h2n⟩
  · exact Or.inl (charListLTb_trans _ _ _ h2 h1)
  · exact Or.inl (by rw [h2]; exact h1)
  · exact Or.inl (by rw [← h1]; exact h2)
  · exact Or.inr ⟨by rw [h2, h1], Nat.le_trans h2n h1n⟩

/-- The lexicographic comparison is irreflexive. -/
theorem charListLTb_irrefl : ∀ a : List Char, charListLTb a a = false := by
  intro a
  induction a with
  | nil => rfl
  | cons x xs ih =>
    simp only [charListLTb]
    rw [if_neg (lt_irrefl x.toNat), if_neg (lt_irrefl x.toNat)]
    exact ih

/-- The lexicographic comparison is asymmetric. -/
theorem charListLTb_asymm (a b : List Char) (h : charListLTb a b = true) :
    charListLTb b a = false := by
  by_contra hb
  have hb' : charListLTb b a = true := by
    revert hb; cases charListLTb b a <;> simp
  have := charListLTb_trans a b a h hb'
  rw [charListLTb_irrefl] at this
  exact absurd this (by simp)

/-- An element visited earlier by the REMOVE_PATHS builder has a
reverse-lexicographically no-smaller path, and on path ties a no-smaller
action index (so `assert_exists` precedes `if_exists`). -/
theorem removeExecRel_elim (a b : RemovePathItem) (h : removeExecRel a b) :
    charListLTb a.path.data b.path.data = false ∧
      (a.path = b.path → removeActionIdx b.action ≤ removeActionIdx a.action) := by
  unfold removeExecRel removeKeyLE at h
  simp only [Bool.or_eq_true, Bool.and_eq_true, decide_eq_true_eq] at h
  rcases h with h | ⟨he, hn⟩
  · refine ⟨charListLTb_asymm _ _ h, fun hp => ?_⟩
    rw [hp] at h
    rw [charListLTb_irrefl] at h
    exact absurd h (by simp)
  · rw [he]
    exact ⟨charListLTb_irrefl _, fun _ => hn⟩

/-- The duplicate scan of `RpmActionItem.get_phase_builder` returns no
conflict exactly when the item names are distinct and disjoint from the
names already seen. -/
theorem rpmFindConflict_eq_none_iff : ∀ (items : List RpmActionItem) (seen : List String),
    rpmFindConflict items seen = none ↔
      ((items.map fun i => i.name).Nodup ∧ ∀ i ∈ items, i.name ∉ seen) := by
  intro items
  induction items with
  | nil =>
    intro seen
    simp [rpmFindConflict]
  | cons x xs ih =>
    intro seen
    simp only [rpmFindConflict]
    by_cases hx : x.name ∈ seen
    · rw [if_pos hx]
      constructor
      · intro h
        exact absurd h (by simp)
      · rintro ⟨-, hall⟩
        exact absurd hx (hall x (by simp))
    · rw [if_neg hx, ih (x.name :: seen)]
      simp only [List.map_cons, List.nodup_cons, List.mem_map, List.mem_cons, not_or,
        List.forall_mem_cons, not_exists]
      constructor
      · rintro ⟨hnodup, hall⟩
        refine ⟨⟨?_, hnodup⟩, ?_⟩
        · intro i hi
          exact (hall i hi.1).1 hi.2
        · intro i hi
          rcases hi with rfl | hm
          · exact hx
          · exact (hall i hm).2
      · rintro ⟨⟨hnotin, hnodup⟩, hall⟩
        exact ⟨hnodup, fun i hi => ⟨fun heq => hnotin i ⟨hi, heq⟩, hall i (Or.inr hi)⟩⟩

/-- A `basename` never contains (hence never starts with) a slash. -/
theorem basename_not_startsWith_sep (s : String) :
    strStartsWith (basename s) "/" = false := by
  unfold strStartsWith basename
  cases hd : (s.data.reverse.takeWhile (· ≠ sep)).reverse with
  | nil => rfl
  | cons c cs =>
    have hc : c ∈ s.data.reverse.takeWhile (· ≠ sep) := by
      have : c ∈ (s.data.reverse.takeWhile (· ≠ sep)).reverse := by
        rw [hd]; exact List.mem_cons_self c cs
      simpa using this
    have hcs : ¬(c = sep) := by
      have := List.mem_takeWhile_imp hc
      simpa using this
    have hnp : ¬(['/'] <+: (c :: cs)) := by
      rw [List.cons_prefix_cons]
      rintro ⟨rfl, -⟩
      exact hcs rfl
    show List.isPrefixOf ['/'] (c :: cs) = false
    rw [Bool.eq_false_iff]
    intro h
    exact hnp (List.isPrefixOf_iff_prefix.mp h)

/-- C2 counterexample: within the REMOVE_PATHS phase builder, two items
with the same normalized path are visited with the `assert_exists` item
first, not the `if_exists` item first as the claim states: the builder
sorts in reverse order and `if_exists` carries the smaller sort index. -/
theorem c2_remove_order_counterexample :
    removePathExecutionOrder
        [⟨"p/q", .if_exists⟩, ⟨"p/q", .assert_exists⟩] =
      [⟨"p/q", .assert_exists⟩, ⟨"p/q", .if_exists⟩] ∧
    ¬removePathExecutionOrder
        [⟨"p/q", .if_exists⟩, ⟨"p/q", .assert_exists⟩] =
      [⟨"p/q", .if_exists⟩, ⟨"p/q", .assert_exists⟩] := by
  constructor
  · rfl
  · decide

/-- C2 (amended): within the REMOVE_PATHS phase builder, the
`RemovePathItems` are executed in reverse-lexicographic order of their
normalized paths, and for two items with the same path the `assert_exists`
item is executed before the `if_exists` item (the builder sorts in reverse,
and `if_exists` has the smaller secondary sort index). -/
theorem c2_remove_order_amended (items : List RemovePathItem) :
    (removePathExecutionOrder items).Perm items ∧
    (removePathExecutionOrder items).Pairwise (fun a b =>
      charListLTb a.path.data b.path.data = false ∧
      (a.path = b.path → removeActionIdx b.action ≤ removeActionIdx a.action)) := by
  constructor
  · exact List.perm_insertionSort _ _
  · exact (List.sorted_insertionSort removeExecRel items).imp
      (fun h => removeExecRel_elim _ _ h)

/-- C4: `_is_path_protected(p, S)` returns true iff some `prot` in `S`
makes `prot + ('' if prot ends with '/' else '/')` a prefix of `p + '/'`;
in particular a protected file path `x/y` shadows every `x/y/anything`. -/
theorem c4_protected_shadowing :
    (∀ (p : String) (S : List String),
      isPathProtected p S = true ↔
        ∃ prot ∈ S,
          (prot ++ (if strEndsWith prot "/" = true then "" else "/")).data <+:
            (p ++ "/").data) ∧
    (∀ rest : String, isPathProtected ("x/y/" ++ rest) ["x/y"] = true) := by
  constructor
  · intro p S
    unfold isPathProtected strStartsWith
    rw [List.any_eq_true]
    constructor
    · rintro ⟨prot, hmem, hpre⟩
      exact ⟨prot, hmem, List.isPrefixOf_iff_prefix.mp hpre⟩
    · rintro ⟨prot, hmem, hpre⟩
      exact ⟨prot, hmem, List.isPrefixOf_iff_prefix.mpr hpre⟩
  · intro rest
    unfold isPathProtected
    rw [List.any_eq_true]
    refine ⟨"x/y", by simp, ?_⟩
    have hcond : ("x/y" ++ (if strEndsWith "x/y" "/" = true then "" else "/")) = "x/y/" := by rfl
    rw [hcond]
    unfold strStartsWith
    rw [List.isPrefixOf_iff_prefix]
    show "x/y/".data <+: (("x/y/" ++ rest) ++ "/").data
    rw [String.data_append, String.data_append, List.append_assoc]
    exact List.prefix_append _ _

/-- C6: for `CopyFileItem(source, dest)`, the stored destination is the
normalization of `dest + basename(source)` when `dest` ends with `'/'` and
the normalization of `dest` otherwise; `provides()` is exactly
`ProvidesFile` there, and `requires()` is exactly `require_directory` of its
`dirname`. -/
theorem c6_copy_file_dest (source dest : String) (item : CopyFileItem)
    (h : mkCopyFileItem source dest = .ok item) :
    makePathNormalRelative
        (if strEndsWith dest "/" = true then dest ++ basename source else dest) =
      .ok item.dest ∧
    item.source = source ∧
    item.provides = [Provide.file item.dest] ∧
    item.requires = [Require.directory (dirname item.dest)] := by
  have hjoin : (if strEndsWith dest "/" = true then joinPath dest (basename source) else dest)
      = (if strEndsWith dest "/" = true then dest ++ basename source else dest) := by
    by_cases hd : strEndsWith dest "/" = true
    · rw [if_pos hd, if_pos hd]
      unfold joinPath
      rw [if_neg (by simp [basename_not_startsWith_sep source])]
      rw [if_pos (Or.inr hd)]
    · rw [if_neg hd, if_neg hd]
  unfold mkCopyFileItem makeRsyncStyleDestPath at h
  rw [hjoin] at h
  cases hm : makePathNormalRelative
      (if strEndsWith dest "/" = true then dest ++ basename source else dest) with
  | error e =>
    rw [hm] at h
    exact absurd h (by simp [Except.map])
  | ok d =>
    rw [hm] at h
    simp only [Except.map, Except.ok.injEq] at h
    rw [← h]
    exact ⟨rfl, rfl, rfl, rfl⟩

/-- C6 witness: a concrete rsync-style destination. -/
theorem c6_copy_file_dest_witness :
    mkCopyFileItem "/some/x" "/foo/bar/" = .ok ⟨"/some/x", "foo/bar/x"⟩ ∧
    (makePathNormalRelative
        (if strEndsWith "/foo/bar/" "/" = true then "/foo/bar/" ++ basename "/some/x"
         else "/foo/bar/") =
      .ok (CopyFileItem.mk "/some/x" "foo/bar/x").dest ∧
    (CopyFileItem.mk "/some/x" "foo/bar/x").source = "/some/x" ∧
    (CopyFileItem.mk "/some/x" "foo/bar/x").provides =
      [Provide.file (CopyFileItem.mk "/some/x" "foo/bar/x").dest] ∧
    (CopyFileItem.mk "/some/x" "foo/bar/x").requires =
      [Require.directory (dirname (CopyFileItem.mk "/some/x" "foo/bar/x").dest)]) :=
  ⟨rfl, c6_copy_file_dest "/some/x" "/foo/bar/" ⟨"/some/x", "foo/bar/x"⟩ rfl⟩

/-- C7: with valid layer options, `RpmActionItem.get_phase_builder` fails
with an RPM action conflict when some package name appears in more than one
item, and returns a builder otherwise. -/
theorem c7_rpm_factory_conflict (items : List RpmActionItem) (opts : LayerOpts)
    (h : validLayerOpts opts) :
    (¬(items.map fun i => i.name).Nodup →
      ∃ n, rpmGetPhaseBuilder items opts = .error (.actionConflict n)) ∧
    ((items.map fun i => i.name).Nodup →
      (rpmGetPhaseBuilder items opts).isOk = true) := by
  obtain ⟨h1, h2⟩ := h
  unfold rpmGetPhaseBuilder
  rw [if_neg (not_not_intro h1), if_neg (not_not_intro h2)]
  constructor
  · intro hnd
    cases hc : rpmFindConflict items [] with
    | none =>
      rw [rpmFindConflict_eq_none_iff] at hc
      exact absurd hc.1 hnd
    | some n =>
      exact ⟨n, rfl⟩
  · intro hnd
    have hc : rpmFindConflict items [] = none :=
      (rpmFindConflict_eq_none_iff items []).mpr ⟨hnd, by simp⟩
    rw [hc]
    rfl

/-- C7 witness: two distinct packages build; layer options with only
`yum_from_snapshot` set are valid. -/
theorem c7_rpm_factory_conflict_witness :
    validLayerOpts ⟨"tgt", some "yum", none⟩ ∧
    ((¬(([⟨"t", "rpm-test-mice", RpmAction.install⟩,
          ⟨"t", "rpm-test-carrot", RpmAction.remove_if_exists⟩] :
            List RpmActionItem).map fun i => i.name).Nodup →
      ∃ n, rpmGetPhaseBuilder
          [⟨"t", "rpm-test-mice", RpmAction.install⟩,
           ⟨"t", "rpm-test-carrot", RpmAction.remove_if_exists⟩]
          ⟨"tgt", some "yum", none⟩ = .error (.actionConflict n)) ∧
    ((([⟨"t", "rpm-test-mice", RpmAction.install⟩,
        ⟨"t", "rpm-test-carrot", RpmAction.remove_if_exists⟩] :
          List RpmActionItem).map fun i => i.name).Nodup →
      (rpmGetPhaseBuilder
          [⟨"t", "rpm-test-mice", RpmAction.install⟩,
           ⟨"t", "rpm-test-carrot", RpmAction.remove_if_exists⟩]
          ⟨"tgt", some "yum", none⟩).isOk = true)) :=
  ⟨⟨Or.inl rfl, Or.inr rfl⟩,
    c7_rpm_factory_conflict _ _ ⟨Or.inl rfl, Or.inr rfl⟩⟩

/-- C10: the factory fails for a package named by two items even when both
specify the identical action: the conflict check counts items per package
name, not distinct actions. -/
theorem c10_identical_action_conflict (n : String) (a : RpmAction)
    (t1 t2 : String) (rest : List RpmActionItem) (opts : LayerOpts)
    (h : validLayerOpts opts) :
    rpmGetPhaseBuilder (⟨t1, n, a⟩ :: ⟨t2, n, a⟩ :: rest) opts =
      .error (.actionConflict n) := by
  obtain ⟨h1, h2⟩ := h
  unfold rpmGetPhaseBuilder
  rw [if_neg (not_not_intro h1), if_neg (not_not_intro h2)]
  have hc : rpmFindConflict (⟨t1, n, a⟩ :: ⟨t2, n, a⟩ :: rest) [] = some n := by
    simp [rpmFindConflict]
  rw [hc]

/-- C10 witness: two installs of the same package conflict. -/
theorem c10_identical_action_conflict_witness :
    validLayerOpts ⟨"tgt", some "yum", none⟩ ∧
    rpmGetPhaseBuilder
        [⟨"t", "rpm-test-mice", RpmAction.install⟩,
         ⟨"u", "rpm-test-mice", RpmAction.install⟩]
        ⟨"tgt", some "yum", none⟩ =
      .error (.actionConflict "rpm-test-mice") :=
  ⟨⟨Or.inl rfl, Or.inr rfl⟩,
    c10_identical_action_conflict "rpm-test-mice" RpmAction.install "t" "u" []
      ⟨"tgt", some "yum", none⟩ ⟨Or.inl rfl, Or.inr rfl⟩⟩

/-- C9: `Subvol.path` returns the path inside the subvolume or raises,
raising exactly when the symlink-resolved location of the joined path, made
relative to the resolved subvolume root, is `'..'` or starts with `'../'`
(for any resolution oracle `realpath`). -/
theorem c9_subvol_path_escape (realpath : String → String) (svRoot pIn : String)
    (ndl : Bool) :
    ((subvolPath realpath svRoot pIn ndl).isOk = true ↔
      ¬(subvolRootRelative realpath svRoot pIn ndl = ".." ∨
        (subvolRootRelative realpath svRoot pIn ndl).data.take 3 = ['.', '.', '/'])) ∧
    (∀ ret, subvolPath realpath svRoot pIn ndl = .ok ret →
      ret = subvolResultPath svRoot pIn) := by
  have hiff : strStartsWith (subvolRootRelative realpath svRoot pIn ndl) "../" = true ↔
      (subvolRootRelative realpath svRoot pIn ndl).data.take 3 = ['.', '.', '/'] := by
    unfold strStartsWith
    rw [List.isPrefixOf_iff_prefix, List.prefix_iff_eq_take]
    show (['.', '.', '/'] = List.take 3 (subvolRootRelative realpath svRoot pIn ndl).data) ↔ _
    exact eq_comm
  unfold subvolPath
  by_cases hesc : strStartsWith (subvolRootRelative realpath svRoot pIn ndl) "../" = true ∨
      subvolRootRelative realpath svRoot pIn ndl = ".."
  · rw [if_pos hesc]
    constructor
    · constructor
      · intro hok
        exact absurd hok (by decide)
      · intro hne
        exact absurd (hesc.elim (fun hl => Or.inr (hiff.mp hl)) Or.inl) hne
    · intro ret hret
      exact Except.noConfusion hret
  · rw [if_neg hesc]
    constructor
    · constructor
      · intro _ hor
        exact hesc (hor.elim (fun he => Or.inr he) (fun ht => Or.inl (hiff.mpr ht)))
      · intro _
        rfl
    · intro ret hret
      simp only [Except.ok.injEq] at hret
      exact hret.symm

/-- C9 witness: with the identity resolution oracle, `a` stays inside the
root `/r` while `..` escapes it. -/
theorem c9_subvol_path_escape_witness :
    ((subvolPath id "/r" "a" false).isOk = true ↔
      ¬(subvolRootRelative id "/r" "a" false = ".." ∨
        (subvolRootRelative id "/r" "a" false).data.take 3 = ['.', '.', '/'])) ∧
    (∀ ret, subvolPath id "/r" "a" false = .ok ret → ret = subvolResultPath "/r" "a") :=
  c9_subvol_path_escape id "/r" "a" false

/-- C1: for every valid item set (exactly one PARENT_LAYER item) the plan
emits the phase builders in strict `Phase` ordinal order, omitting empty
phases, each with all items of its phase, and every additive item after all
phase builders. -/
theorem c1_phase_order (items : List AnyItem) (plan : List Emitted)
    (h : compilePlan items = .ok plan) :
    (phaseBucket items .PARENT_LAYER).length = 1 ∧
    ∃ phases : List (PhaseOrder × List AnyItem),
      plan = phases.map (fun p => Emitted.phaseBuilder p.1 p.2) ++
        (additiveItems items).map Emitted.additive ∧
      (phases.map Prod.fst).Pairwise (fun a b => a.ord < b.ord) ∧
      (∀ p ∈ phases, p.2 = phaseBucket items p.1 ∧ p.2 ≠ []) ∧
      (∀ ph : PhaseOrder, phaseBucket items ph ≠ [] → ph ∈ phases.map Prod.fst) := by
  unfold compilePlan orderedPhases at h
  by_cases hp : (phaseBucket items .PARENT_LAYER).length = 1
  · rw [if_pos hp] at h
    simp only [Except.map, Except.ok.injEq] at h
    refine ⟨hp, allPhases.filterMap fun ph =>
      if (phaseBucket items ph).isEmpty then none else some (ph, phaseBucket items ph),
      h.symm, ?_, ?_, ?_⟩
    · rw [List.pairwise_map, List.pairwise_filterMap]
      have hbase : allPhases.Pairwise (fun a b => a.ord < b.ord) := by
        unfold allPhases
        simp [PhaseOrder.ord]
      refine hbase.imp ?_
      intro a b hab x hx y hy
      have hxa : x.1 = a := by
        by_cases he : (phaseBucket items a).isEmpty
        · rw [if_pos he] at hx
          exact absurd hx (by simp)
        · rw [if_neg he] at hx
          simp only [Option.mem_def, Option.some.injEq] at hx
          rw [← hx]
      have hyb : y.1 = b := by
        by_cases he : (phaseBucket items b).isEmpty
        · rw [if_pos he] at hy
          exact absurd hy (by simp)
        · rw [if_neg he] at hy
          simp only [Option.mem_def, Option.some.injEq] at hy
          rw [← hy]
      rw [hxa, hyb]
      exact hab
    · intro p hp'
      rw [List.mem_filterMap] at hp'
      obtain ⟨ph, -, hf⟩ := hp'
      by_cases he : (phaseBucket items ph).isEmpty
      · rw [if_pos he] at hf
        exact absurd hf (by simp)
      · rw [if_neg he] at hf
        simp only [Option.some.injEq] at hf
        rw [← hf]
        exact ⟨rfl, by simpa using he⟩
    · intro ph hne
      rw [List.mem_map]
      refine ⟨(ph, phaseBucket items ph), ?_, rfl⟩
      rw [List.mem_filterMap]
      refine ⟨ph, ?_, ?_⟩
      · cases ph <;> simp [allPhases]
      · rw [if_neg (by simpa using hne)]
  · rw [if_neg hp] at h
    exact absurd h (by simp [Except.map])

/-- Items of the phase-ordering scenario of the spec (section 8, scenario
5): a filesystem root, one RPM install, two RPM removes, and three path
removes. -/
def c1ScenarioItems : List AnyItem :=
  [.filesystemRoot "t",
   .rpmAction ⟨"t", "rpm-test-mice", .install⟩,
   .rpmAction ⟨"t", "rpm-test-carrot", .remove_if_exists⟩,
   .rpmAction ⟨"t", "rpm-test-milk", .remove_if_exists⟩,
   .removePath "t" ⟨"path/to/remove", .if_exists⟩,
   .removePath "t" ⟨"path/to/remove", .assert_exists⟩,
   .removePath "t" ⟨"another/path/to/remove", .assert_exists⟩]

/-- The plan computed for `c1ScenarioItems`: PARENT_LAYER, then RPM_REMOVE
(carrot, milk), then RPM_INSTALL (mice), then REMOVE_PATHS. -/
def c1ScenarioPlan : List Emitted :=
  [.phaseBuilder .PARENT_LAYER [.filesystemRoot "t"],
   .phaseBuilder .RPM_REMOVE
     [.rpmAction ⟨"t", "rpm-test-carrot", .remove_if_exists⟩,
      .rpmAction ⟨"t", "rpm-test-milk", .remove_if_exists⟩],
   .phaseBuilder .RPM_INSTALL [.rpmAction ⟨"t", "rpm-test-mice", .install⟩],
   .phaseBuilder .REMOVE_PATHS
     [.removePath "t" ⟨"path/to/remove", .if_exists⟩,
      .removePath "t" ⟨"path/to/remove", .assert_exists⟩,
      .removePath "t" ⟨"another/path/to/remove", .assert_exists⟩]]

/-- C1 witness: the scenario of spec section 8 compiles to the expected
builder sequence. -/
theorem c1_phase_order_witness :
    compilePlan c1ScenarioItems = .ok c1ScenarioPlan ∧
    ((phaseBucket c1ScenarioItems .PARENT_LAYER).length = 1 ∧
    ∃ phases : List (PhaseOrder × List AnyItem),
      c1ScenarioPlan = phases.map (fun p => Emitted.phaseBuilder p.1 p.2) ++
        (additiveItems c1ScenarioItems).map Emitted.additive ∧
      (phases.map Prod.fst).Pairwise (fun a b => a.ord < b.ord) ∧
      (∀ p ∈ phases, p.2 = phaseBucket c1ScenarioItems p.1 ∧ p.2 ≠ []) ∧
      (∀ ph : PhaseOrder, phaseBucket c1ScenarioItems ph ≠ [] →
        ph ∈ phases.map Prod.fst)) :=
  ⟨rfl, c1_phase_order c1ScenarioItems c1ScenarioPlan rfl⟩

/-- Unfolding of `normComps` on a cons cell. -/
theorem normComps_cons (ini : Bool) (comp : List Char) (rest acc : List (List Char)) :
    normComps ini (comp :: rest) acc =
      if comp = [] ∨ comp = dotComp then normComps ini rest acc
      else if comp ≠ dotdot ∨ (¬ini ∧ acc = []) ∨ (acc ≠ [] ∧ acc.head? = some dotdot) then
        normComps ini rest (comp :: acc)
      else
        match acc with
        | [] => normComps ini rest []
        | _ :: acc' => normComps ini rest acc' := rfl

/-- Components produced by `splitSlashAux` are slash-free when the
accumulator is. -/
theorem splitSlashAux_slashfree : ∀ (cs acc : List Char), sep ∉ acc →
    ∀ c ∈ splitSlashAux cs acc, sep ∉ c := by
  intro cs
  induction cs with
  | nil =>
    intro acc hacc c hc
    simp only [splitSlashAux, List.mem_singleton] at hc
    rw [hc]
    simpa using hacc
  | cons x xs ih =>
    intro acc hacc c hc
    simp only [splitSlashAux] at hc
    by_cases hx : x = sep
    · rw [if_pos hx] at hc
      rcases List.mem_cons.mp hc with rfl | hmem
      · simpa using hacc
      · exact ih [] (by simp) c hmem
    · rw [if_neg hx] at hc
      refine ih (x :: acc) ?_ c hc
      intro hmem
      rcases List.mem_cons.mp hmem with heq | hmem'
      · exact hx heq.symm
      · exact hacc hmem'

/-- Components produced by `splitSlash` are slash-free. -/
theorem splitSlash_slashfree (cs : List Char) : ∀ c ∈ splitSlash cs, sep ∉ c :=
  splitSlashAux_slashfree cs [] (by simp)

/-- `normComps` appends clean components unchanged. -/
theorem normComps_clean_id : ∀ (l : List (List Char)) (ini : Bool) (acc : List (List Char)),
    (∀ c ∈ l, cleanComp c) → normComps ini l acc = acc.reverse ++ l := by
  intro l
  induction l with
  | nil =>
    intro ini acc _
    simp [normComps]
  | cons comp rest ih =>
    intro ini acc hl
    obtain ⟨hne, hdot, hdd, -⟩ := hl comp (by simp)
    show normComps ini (comp :: rest) acc = acc.reverse ++ comp :: rest
    rw [normComps_cons]
    rw [if_neg (by simp [hne, hdot])]
    rw [if_pos (Or.inl hdd)]
    rw [ih ini (comp :: acc) (fun c hc => hl c (List.mem_cons_of_mem _ hc))]
    simp

/-- Splitting after joining slash-free components is the identity. -/
theorem splitSlashAux_append : ∀ (c rest acc : List Char), sep ∉ c →
    splitSlashAux (c ++ rest) acc = splitSlashAux rest (c.reverse ++ acc) := by
  intro c
  induction c with
  | nil =>
    intro rest acc _
    simp
  | cons x xs ih =>
    intro rest acc hc
    have hx : ¬x = sep := by
      intro hx
      exact hc (by simp [hx])
    show splitSlashAux (x :: (xs ++ rest)) acc = _
    rw [splitSlashAux, if_neg hx]
    rw [ih rest (x :: acc) (fun hmem => hc (by simp [hmem]))]
    simp

/-- `splitSlash` inverts `joinSlash` on nonempty lists of slash-free
components. -/
theorem splitSlash_joinSlash : ∀ (cr : List (List Char)), cr ≠ [] →
    (∀ c ∈ cr, sep ∉ c) → splitSlash (joinSlash cr) = cr := by
  intro cr
  induction cr with
  | nil =>
    intro h
    exact absurd rfl h
  | cons c rest ih =>
    intro _ hsf
    cases rest with
    | nil =>
      show splitSlashAux (joinSlash [c]) [] = [c]
      have : joinSlash [c] = c := rfl
      rw [this, ← List.append_nil c, splitSlashAux_append c [] [] (hsf c (by simp))]
      simp [splitSlashAux]
    | cons c2 rest2 =>
      show splitSlashAux (joinSlash (c :: c2 :: rest2)) [] = c :: c2 :: rest2
      have : joinSlash (c :: c2 :: rest2) = c ++ sep :: joinSlash (c2 :: rest2) := rfl
      rw [this, splitSlashAux_append c _ [] (hsf c (by simp))]
      show splitSlashAux (sep :: joinSlash (c2 :: rest2)) (c.reverse ++ []) = _
      rw [splitSlashAux, if_pos rfl]
      show (c.reverse ++ []).reverse :: splitSlash (joinSlash (c2 :: rest2)) = _
      rw [ih (by simp) (fun x hx => hsf x (by simp [hx]))]
      simp

/-- The join of a component list starting with a nonempty component starts
with that component's first character. -/
theorem joinSlash_cons_ne_nil : ∀ (c : List Char) (rest : List (List Char))
    (ch : Char) (ct : List Char), c = ch :: ct →
    ∃ t, joinSlash (c :: rest) = ch :: t := by
  intro c rest ch ct hc
  cases rest with
  | nil =>
    exact ⟨ct, by rw [show joinSlash [c] = c from rfl, hc]⟩
  | cons c2 rest2 =>
    refine ⟨ct ++ sep :: joinSlash (c2 :: rest2), ?_⟩
    rw [show joinSlash (c :: c2 :: rest2) = c ++ sep :: joinSlash (c2 :: rest2) from rfl, hc]
    simp

/-- Dropping leading slashes skips a leading slash run. -/
theorem dropWhile_replicate_sep (k : Nat) (l : List Char) :
    (List.replicate k sep ++ l).dropWhile (· = sep) = l.dropWhile (· = sep) := by
  induction k with
  | zero => simp
  | succ m ih =>
    rw [List.replicate_succ, List.cons_append, List.dropWhile_cons]
    simp [ih]

/-- A character list not beginning with `'/'` keeps it drops nothing. -/
theorem dropWhile_sep_of_head_ne (ch : Char) (t : List Char) (h : ¬ch = sep) :
    (ch :: t).dropWhile (· = sep) = ch :: t := by
  rw [List.dropWhile_cons]
  simp [h]

/-- A character list not beginning with `'/'` has no initial slashes. -/
theorem initialSlashCount_eq_zero (cs : List Char)
    (h : ∀ t, cs ≠ sep :: t) : initialSlashCount cs = 0 := by
  unfold initialSlashCount
  split
  · exact absurd rfl (h _)
  · exact absurd rfl (h _)
  · exact absurd rfl (h _)
  · rfl

/-- Unfolding of `escapesAux` on a cons cell. -/
theorem escapesAux_cons (c : List Char) (rest : List (List Char)) (depth : Nat) :
    escapesAux (c :: rest) depth =
      if c = [] ∨ c = dotComp then escapesAux rest depth
      else if c = dotdot then (if depth = 0 then true else escapesAux rest (depth - 1))
      else escapesAux rest (depth + 1) := rfl

/-- Structure of the `normpath` component loop: started on an accumulator of
clean components over a (possibly empty) `'..'` run, it produces a `'..'`
run followed by clean components, and an absolute path produces no `'..'`
at all. -/
theorem normComps_structure : ∀ (comps : List (List Char)) (ini : Bool)
    (cr : List (List Char)) (n : Nat),
    (∀ c ∈ comps, sep ∉ c) → (∀ c ∈ cr, cleanComp c) → (ini = true → n = 0) →
    ∃ n' cr', normComps ini comps (cr ++ List.replicate n dotdot) =
        List.replicate n' dotdot ++ cr' ∧
      (∀ c ∈ cr', cleanComp c) ∧ (ini = true → n' = 0) := by
  intro comps
  induction comps with
  | nil =>
    intro ini cr n _ hcr hini
    refine ⟨n, cr.reverse, ?_, fun c hc => hcr c (List.mem_reverse.mp hc), hini⟩
    show (cr ++ List.replicate n dotdot).reverse = _
    rw [List.reverse_append, List.reverse_replicate]
  | cons comp rest ih =>
    intro ini cr n hsf hcr hini
    have hsfrest : ∀ c ∈ rest, sep ∉ c := fun c hc => hsf c (List.mem_cons_of_mem _ hc)
    have hsfc : sep ∉ comp := hsf comp (by simp)
    rw [normComps_cons]
    by_cases h1 : comp = [] ∨ comp = dotComp
    · rw [if_pos h1]
      exact ih ini cr n hsfrest hcr hini
    · rw [if_neg h1]
      push_neg at h1
      by_cases h2 : comp = dotdot
      · subst h2
        cases cr with
        | nil =>
          cases n with
          | zero =>
            by_cases hb : ini = true
            · rw [if_neg (by simp [hb, dotdot, dotComp])]
              have := ih ini [] 0 hsfrest (by simp) (fun _ => rfl)
              simpa using this
            · rw [if_pos (Or.inr (Or.inl ⟨by simp [hb], by simp⟩))]
              have := ih ini [] 1 hsfrest (by simp) (fun h => absurd h hb)
              simpa using this
          | succ m =>
            rw [if_pos (Or.inr (Or.inr ⟨by simp [List.replicate_succ], by
              simp [List.replicate_succ]⟩))]
            have hini' : ini = true → m + 2 = 0 :=
              fun h => absurd (hini h) (Nat.succ_ne_zero m)
            have := ih ini [] (m + 2) hsfrest (by simp) hini'
            simp only [List.nil_append] at this ⊢
            rw [show (dotdot :: List.replicate (m + 1) dotdot) =
              List.replicate (m + 2) dotdot from (List.replicate_succ _ _).symm]
            exact this
        | cons c cr' =>
          have hcclean : cleanComp c := hcr c (by simp)
          rw [if_neg (by
            simp only [not_or]
            refine ⟨by simp [dotdot], ?_, ?_⟩
            · rintro ⟨-, habs⟩
              simp at habs
            · rintro ⟨-, hhead⟩
              simp only [List.cons_append, List.head?_cons, Option.some.injEq] at hhead
              exact hcclean.2.2.1 hhead)]
          exact ih ini cr' n hsfrest (fun x hx => hcr x (List.mem_cons_of_mem _ hx)) hini
      · rw [if_pos (Or.inl h2)]
        have hclean : cleanComp comp := ⟨h1.1, h1.2, h2, hsfc⟩
        have := ih ini (comp :: cr) n hsfrest (fun x hx => by
          rcases List.mem_cons.mp hx with rfl | hh
          · exact hclean
          · exact hcr x hh) hini
        simpa using this

/-- If the depth walk of the remaining components escapes the current clean
depth, or the accumulator already carries a `'..'`, the relative-path
component loop ends with at least one leading `'..'`. -/
theorem normComps_escape : ∀ (comps : List (List Char)) (cr : List (List Char)) (n : Nat),
    (∀ c ∈ comps, sep ∉ c) → (∀ c ∈ cr, cleanComp c) →
    (escapesAux comps cr.length = true ∨ 1 ≤ n) →
    ∃ n' cr', normComps false comps (cr ++ List.replicate n dotdot) =
        List.replicate n' dotdot ++ cr' ∧
      (∀ c ∈ cr', cleanComp c) ∧ 1 ≤ n' := by
  intro comps
  induction comps with
  | nil =>
    intro cr n _ hcr hesc
    rcases hesc with hesc | hn
    · exact absurd hesc (by simp [escapesAux])
    · refine ⟨n, cr.reverse, ?_, fun c hc => hcr c (List.mem_reverse.mp hc), hn⟩
      show (cr ++ List.replicate n dotdot).reverse = _
      rw [List.reverse_append, List.reverse_replicate]
  | cons comp rest ih =>
    intro cr n hsf hcr hesc
    have hsfrest : ∀ c ∈ rest, sep ∉ c := fun c hc => hsf c (List.mem_cons_of_mem _ hc)
    have hsfc : sep ∉ comp := hsf comp (by simp)
    rw [normComps_cons]
    rw [escapesAux_cons] at hesc
    by_cases h1 : comp = [] ∨ comp = dotComp
    · rw [if_pos h1]
      rw [if_pos h1] at hesc
      exact ih cr n hsfrest hcr hesc
    · rw [if_neg h1]
      rw [if_neg h1] at hesc
      push_neg at h1
      by_cases h2 : comp = dotdot
      · subst h2
        rw [if_pos rfl] at hesc
        cases cr with
        | nil =>
          cases n with
          | zero =>
            rw [if_pos (Or.inr (Or.inl ⟨by simp, by simp⟩))]
            have := ih [] 1 hsfrest (by simp) (Or.inr (by omega))
            simpa using this
          | succ m =>
            rw [if_pos (Or.inr (Or.inr ⟨by simp [List.replicate_succ], by
              simp [List.replicate_succ]⟩))]
            have := ih [] (m + 2) hsfrest (by simp) (Or.inr (by omega))
            simp only [List.nil_append] at this ⊢
            rw [show (dotdot :: List.replicate (m + 1) dotdot) =
              List.replicate (m + 2) dotdot from (List.replicate_succ _ _).symm]
            exact this
        | cons c cr' =>
          have hcclean : cleanComp c := hcr c (by simp)
          rw [if_neg (by
            simp only [not_or]
            refine ⟨by simp [dotdot], ?_, ?_⟩
            · rintro ⟨-, habs⟩
              simp at habs
            · rintro ⟨-, hhead⟩
              simp only [List.cons_append, List.head?_cons, Option.some.injEq] at hhead
              exact hcclean.2.2.1 hhead)]
          have hesc' : escapesAux rest cr'.length = true ∨ 1 ≤ n := by
            rcases hesc with hesc | hn
            · left
              rw [if_neg (by simp)] at hesc
              simpa using hesc
            · exact Or.inr hn
          exact ih cr' n hsfrest (fun x hx => hcr x (List.mem_cons_of_mem _ hx)) hesc'
      · rw [if_pos (Or.inl h2)]
        rw [if_neg h2] at hesc
        have hclean : cleanComp comp := ⟨h1.1, h1.2, h2, hsfc⟩
        have := ih (comp :: cr) n hsfrest (fun x hx => by
          rcases List.mem_cons.mp hx with rfl | hh
          · exact hclean
          · exact hcr x hh) (by simpa using hesc)
        simpa using this

/-- Every value of `os.path.normpath(p).lstrip('/')` is empty, `'.'`, or a
slash-joined `'..'` run followed by clean components. -/
theorem lstrip_normpath_structure (p : String) :
    lstripSlashes (normpath p) = "" ∨ lstripSlashes (normpath p) = "." ∨
    ∃ n cr, List.replicate n dotdot ++ cr ≠ ([] : List (List Char)) ∧
      (∀ c ∈ cr, cleanComp c) ∧
      (lstripSlashes (normpath p)).data = joinSlash (List.replicate n dotdot ++ cr) := by
  by_cases hp : p.data = []
  · right; left
    apply String.ext
    show ((normpath p).data.dropWhile (· = sep)) = ".".data
    show ((normpathData p.data).dropWhile (· = sep)) = _
    rw [hp]
    rfl
  · obtain ⟨n', cr', hout, hclean, hini⟩ :=
      normComps_structure (splitSlash p.data) (decide (initialSlashCount p.data ≠ 0))
        [] 0 (splitSlash_slashfree p.data) (by simp) (fun _ => rfl)
    simp only [List.replicate, List.nil_append] at hout
    have hdata : (lstripSlashes (normpath p)).data =
        (normpathData p.data).dropWhile (· = sep) := rfl
    have hnd : normpathData p.data =
        (if List.replicate (initialSlashCount p.data) sep ++
            joinSlash (normComps (decide (initialSlashCount p.data ≠ 0))
              (splitSlash p.data) []) = []
         then dotComp
         else List.replicate (initialSlashCount p.data) sep ++
            joinSlash (normComps (decide (initialSlashCount p.data ≠ 0))
              (splitSlash p.data) [])) := by
      unfold normpathData
      rw [if_neg hp]
    rw [hout] at hnd
    by_cases hcomps : List.replicate n' dotdot ++ cr' = ([] : List (List Char))
    · rw [hcomps] at hnd
      simp only [joinSlash, List.append_nil] at hnd
      by_cases hk : initialSlashCount p.data = 0
      · rw [hk] at hnd
        simp only [List.replicate] at hnd
        right; left
        apply String.ext
        rw [hdata, hnd]
        rfl
      · have hne : List.replicate (initialSlashCount p.data) sep ≠ [] := by
          intro habs
          apply hk
          have := congrArg List.length habs
          simpa using this
        rw [if_neg hne] at hnd
        left
        apply String.ext
        rw [hdata, hnd]
        rw [show (List.replicate (initialSlashCount p.data) sep) =
          List.replicate (initialSlashCount p.data) sep ++ [] from (List.append_nil _).symm]
        rw [dropWhile_replicate_sep]
        rfl
    · have hfirst : ∃ ch t,
          joinSlash (List.replicate n' dotdot ++ cr') = ch :: t ∧ ¬ch = sep := by
        cases n' with
        | zero =>
          simp only [List.replicate, List.nil_append] at hcomps ⊢
          cases hcr0 : cr' with
          | nil => exact absurd hcr0 hcomps
          | cons c0 r0 =>
            obtain ⟨hne0, -, -, hsf0⟩ := hclean c0 (by rw [hcr0]; simp)
            cases hc0 : c0 with
            | nil => exact absurd hc0 hne0
            | cons ch ct =>
              obtain ⟨t, ht⟩ := joinSlash_cons_ne_nil c0 r0 ch ct hc0
              refine ⟨ch, t, hc0 ▸ ht, ?_⟩
              intro hch
              rw [hc0, hch] at hsf0
              exact hsf0 (by simp)
        | succ m =>
          rw [List.replicate_succ, List.cons_append]
          obtain ⟨t, ht⟩ :=
            joinSlash_cons_ne_nil dotdot (List.replicate m dotdot ++ cr') '.' ['.'] rfl
          exact ⟨'.', t, ht, by decide⟩
      obtain ⟨ch, t, hjoin, hch⟩ := hfirst
      have hpathne : List.replicate (initialSlashCount p.data) sep ++
          joinSlash (List.replicate n' dotdot ++ cr') ≠ [] := by
        rw [hjoin]
        simp
      rw [if_neg hpathne] at hnd
      right; right
      refine ⟨n', cr', hcomps, hclean, ?_⟩
      rw [hdata, hnd, dropWhile_replicate_sep, hjoin]
      exact dropWhile_sep_of_head_ne ch t hch

/-- Inversion of a successful `_make_path_normal_relative`: the result is
the normalized input, and both failure checks were false on it. -/
theorem mpnr_ok_inv (p d : String) (h : makePathNormalRelative p = .ok d) :
    d = lstripSlashes (normpath p) ∧
    ¬(d = ".." ∨ strStartsWith d "../" = true) ∧
    ¬strStartsWith (d ++ "/") META_DIR = true := by
  simp only [makePathNormalRelative] at h
  by_cases h1 : lstripSlashes (normpath p) = ".." ∨
      strStartsWith (lstripSlashes (normpath p)) "../" = true
  · rw [if_pos h1] at h
    exact absurd h (by simp)
  · rw [if_neg h1] at h
    by_cases h2 : strStartsWith (lstripSlashes (normpath p) ++ "/") META_DIR = true
    · rw [if_pos h2] at h
      exact absurd h (by simp)
    · rw [if_neg h2] at h
      simp only [Except.ok.injEq] at h
      subst h
      exact ⟨rfl, h1, h2⟩

/-- A nonempty slash-join of clean components is a fixed point of
`normpath` followed by `lstrip('/')`. -/
theorem normpath_fixed (d : String) (cr : List (List Char)) (hne : cr ≠ [])
    (hclean : ∀ c ∈ cr, cleanComp c) (hd : d.data = joinSlash cr) :
    lstripSlashes (normpath d) = d := by
  obtain ⟨ch, t, hform, hch⟩ : ∃ ch t, d.data = ch :: t ∧ ¬ch = sep := by
    cases hcr0 : cr with
    | nil => exact absurd hcr0 hne
    | cons c0 r0 =>
      obtain ⟨hne0, -, -, hsf0⟩ := hclean c0 (by rw [hcr0]; simp)
      cases hc0 : c0 with
      | nil => exact absurd hc0 hne0
      | cons ch ct =>
        obtain ⟨t, ht⟩ := joinSlash_cons_ne_nil c0 r0 ch ct hc0
        refine ⟨ch, t, ?_, ?_⟩
        · rw [hd, hcr0]
          exact ht
        · intro hchs
          rw [hc0, hchs] at hsf0
          exact hsf0 (by simp)
  have hdne : d.data ≠ [] := by
    rw [hform]
    simp
  have hk : initialSlashCount d.data = 0 := by
    rw [hform]
    apply initialSlashCount_eq_zero
    intro t' habs
    injection habs with hh _
    exact hch hh
  have hnd0 : normpathData d.data =
      (if List.replicate (initialSlashCount d.data) sep ++
          joinSlash (normComps (decide (initialSlashCount d.data ≠ 0))
            (splitSlash d.data) []) = []
       then dotComp
       else List.replicate (initialSlashCount d.data) sep ++
          joinSlash (normComps (decide (initialSlashCount d.data ≠ 0))
            (splitSlash d.data) [])) := by
    unfold normpathData
    rw [if_neg hdne]
  rw [hk, show (decide ((0 : Nat) ≠ 0)) = false from rfl] at hnd0
  have hnorm : normComps false (splitSlash d.data) [] = cr := by
    rw [hd, splitSlash_joinSlash cr hne (fun c hc => (hclean c hc).2.2.2)]
    rw [normComps_clean_id cr false [] hclean]
    simp
  rw [hnorm] at hnd0
  simp only [List.replicate, List.nil_append] at hnd0
  rw [← hd, if_neg hdne] at hnd0
  apply String.ext
  show (normpathData d.data).dropWhile (· = sep) = d.data
  rw [hnd0, hform]
  exact dropWhile_sep_of_head_ne ch t hch

/-- On a successful normalization with nonempty result, normalizing again
succeeds and returns the same value. -/
theorem mpnr_idempotent (p d : String) (h : makePathNormalRelative p = .ok d)
    (hne : d ≠ "") : makePathNormalRelative d = .ok d := by
  obtain ⟨hd, h1, h2⟩ := mpnr_ok_inv p d h
  rcases lstrip_normpath_structure p with hs | hs | ⟨n, cr, hcne, hclean, hdata⟩
  · rw [← hd] at hs
    exact absurd hs hne
  · rw [← hd] at hs
    rw [hs]
    rfl
  · rw [show (lstripSlashes (normpath p)).data = d.data from by rw [← hd]] at hdata
    have hn0 : n = 0 := by
      by_contra hn
      obtain ⟨m, rfl⟩ : ∃ m, n = m + 1 := ⟨n - 1, by omega⟩
      rw [List.replicate_succ, List.cons_append] at hdata
      cases hrest : List.replicate m dotdot ++ cr with
      | nil =>
        rw [hrest] at hdata
        have hdd : d = ".." := by
          apply String.ext
          rw [hdata]
          rfl
        exact h1 (Or.inl hdd)
      | cons x xs =>
        rw [hrest] at hdata
        have hsw : strStartsWith d "../" = true := by
          unfold strStartsWith
          rw [hdata]
          rw [List.isPrefixOf_iff_prefix]
          exact ⟨joinSlash (x :: xs), rfl⟩
        exact h1 (Or.inr hsw)
    rw [hn0] at hdata hcne
    simp only [List.replicate, List.nil_append] at hdata hcne
    have hfix := normpath_fixed d cr hcne hclean hdata
    simp only [makePathNormalRelative]
    rw [hfix, if_neg h1, if_neg h2]

/-- A relative path whose `'..'` components resolve above the image root is
rejected with `IllegalPath`. -/
theorem escape_fails (p : String) (hrel : strStartsWith p "/" = false)
    (hesc : escapesRoot p = true) : makePathNormalRelative p = .error .illegalPath := by
  cases hpd : p.data with
  | nil =>
    exfalso
    unfold escapesRoot at hesc
    rw [hpd] at hesc
    exact absurd hesc (by decide)
  | cons ch t =>
    have hch : ¬ch = sep := by
      intro hchs
      unfold strStartsWith at hrel
      rw [hpd, hchs] at hrel
      simp [List.isPrefixOf, sep] at hrel
    have hk : initialSlashCount p.data = 0 := by
      rw [hpd]
      apply initialSlashCount_eq_zero
      intro t' habs
      injection habs with hh _
      exact hch hh
    obtain ⟨n', cr', hout, hclean, hn1⟩ :=
      normComps_escape (splitSlash p.data) [] 0 (splitSlash_slashfree p.data)
        (by simp) (Or.inl hesc)
    simp only [List.replicate, List.nil_append] at hout
    have hdne : p.data ≠ [] := by
      rw [hpd]
      simp
    have hnd0 : normpathData p.data =
        (if List.replicate (initialSlashCount p.data) sep ++
            joinSlash (normComps (decide (initialSlashCount p.data ≠ 0))
              (splitSlash p.data) []) = []
         then dotComp
         else List.replicate (initialSlashCount p.data) sep ++
            joinSlash (normComps (decide (initialSlashCount p.data ≠ 0))
              (splitSlash p.data) [])) := by
      unfold normpathData
      rw [if_neg hdne]
    rw [hk, show (decide ((0 : Nat) ≠ 0)) = false from rfl] at hnd0
    rw [hout] at hnd0
    simp only [List.replicate, List.nil_append] at hnd0
    obtain ⟨m, rfl⟩ : ∃ m, n' = m + 1 := ⟨n' - 1, by omega⟩
    rw [List.replicate_succ, List.cons_append] at hnd0
    cases hrest : List.replicate m dotdot ++ cr' with
    | nil =>
      rw [hrest] at hnd0
      rw [if_neg (by decide)] at hnd0
      have hd : lstripSlashes (normpath p) = ".." := by
        apply String.ext
        show (normpathData p.data).dropWhile (· = sep) = _
        rw [hnd0]
        rfl
      simp only [makePathNormalRelative]
      rw [hd, if_pos (Or.inl rfl)]
    | cons x xs =>
      rw [hrest] at hnd0
      rw [if_neg (by simp [joinSlash, dotdot])] at hnd0
      have hd : (lstripSlashes (normpath p)).data =
          '.' :: '.' :: sep :: joinSlash (x :: xs) := by
        show (normpathData p.data).dropWhile (· = sep) = _
        rw [hnd0]
        rfl
      have hsw : strStartsWith (lstripSlashes (normpath p)) "../" = true := by
        unfold strStartsWith
        rw [hd]
        rw [List.isPrefixOf_iff_prefix]
        exact ⟨joinSlash (x :: xs), rfl⟩
      simp only [makePathNormalRelative]
      rw [if_pos (Or.inr hsw)]

/-- C8 counterexample: `_make_path_normal_relative` succeeds on `'/'` with
result `''`, but applied again to `''` it returns `'.'`, so idempotence
fails on a path on which the function succeeds. -/
theorem c8_norm_idempotence_counterexample :
    makePathNormalRelative "/" = .ok "" ∧
    makePathNormalRelative "" = .ok "." ∧ ("" : String) ≠ "." := by
  exact ⟨rfl, rfl, by decide⟩

/-- C8 (amended): for every path on which `_make_path_normal_relative`
succeeds with a nonempty result, applying it again succeeds with the same
value (absolute inputs that normalize to the image root yield `''`, which
renormalizes to `'.'`); and every relative path whose `'..'` components
resolve above the image root fails with `IllegalPath`. -/
theorem c8_norm_idempotence_amended :
    (∀ p d, makePathNormalRelative p = .ok d → d ≠ "" →
      makePathNormalRelative d = .ok d) ∧
    (∀ p, strStartsWith p "/" = false → escapesRoot p = true →
      makePathNormalRelative p = .error .illegalPath) :=
  ⟨mpnr_idempotent, escape_fails⟩

/-- C8 witness: `a/b/../c` normalizes to `a/c`, which renormalizes to
itself; `a/../../x` escapes the root and fails. -/
theorem c8_norm_idempotence_amended_witness :
    (makePathNormalRelative "a/b/../c" = .ok "a/c" ∧ ("a/c" : String) ≠ "" ∧
      makePathNormalRelative "a/c" = .ok "a/c") ∧
    (strStartsWith "a/../../x" "/" = false ∧ escapesRoot "a/../../x" = true ∧
      makePathNormalRelative "a/../../x" = .error .illegalPath) :=
  ⟨⟨rfl, by decide, c8_norm_idempotence_amended.1 "a/b/../c" "a/c" rfl (by decide)⟩,
   ⟨rfl, rfl, c8_norm_idempotence_amended.2 "a/../../x" rfl rfl⟩⟩

/-- Join distributes over append of nonempty component lists, with a
separating slash. -/
theorem joinSlash_append : ∀ (u v : List (List Char)), u ≠ [] → v ≠ [] →
    joinSlash (u ++ v) = joinSlash u ++ sep :: joinSlash v := by
  intro u
  induction u with
  | nil =>
    intro v hu _
    exact absurd rfl hu
  | cons c u' ih =>
    intro v _ hv
    cases u' with
    | nil =>
      cases v with
      | nil => exact absurd rfl hv
      | cons w v' =>
        show joinSlash (c :: w :: v') = joinSlash [c] ++ sep :: joinSlash (w :: v')
        rfl
    | cons c2 u'' =>
      show joinSlash (c :: (c2 :: u'') ++ v) = _
      rw [show joinSlash (c :: (c2 :: u'') ++ v) =
        c ++ sep :: joinSlash ((c2 :: u'') ++ v) from rfl]
      rw [ih v (by simp) hv]
      rw [show joinSlash (c :: c2 :: u'') = c ++ sep :: joinSlash (c2 :: u'') from rfl,
        List.append_assoc]
      rfl

/-- All characters of a slash-free list satisfy the `(· ≠ sep)` filter. -/
theorem slashfree_all_ne (c : List Char) (hcsf : sep ∉ c) :
    ∀ x ∈ c.reverse, (fun x => decide ¬(x = sep)) x := by
  intro x hx
  have hxs : ¬x = sep := fun hxe => hcsf (hxe ▸ List.mem_reverse.mp hx)
  simpa using hxs

/-- The reversed join of nonempty slash-free components starts with a
non-slash character (i.e. the join does not end in a slash). -/
theorem joinSlash_reverse_head (u : List (List Char)) (hu : u ≠ [])
    (h : ∀ x ∈ u, x ≠ [] ∧ sep ∉ x) :
    ∃ d ds, (joinSlash u).reverse = d :: ds ∧ ¬d = sep := by
  induction u using List.reverseRecOn with
  | nil => exact absurd rfl hu
  | append_singleton ys c ih =>
    obtain ⟨hcne, hcsf⟩ := h c (by simp)
    obtain ⟨d, ds, hds⟩ : ∃ d ds, c.reverse = d :: ds := by
      cases hc : c.reverse with
      | nil =>
        exfalso
        apply hcne
        have := congrArg List.reverse hc
        simpa using this
      | cons d ds => exact ⟨d, ds, rfl⟩
    have hdinc : d ∈ c := by
      rw [← List.mem_reverse, hds]
      simp
    have hdns : ¬d = sep := fun hd => hcsf (hd ▸ hdinc)
    by_cases hys : ys = []
    · refine ⟨d, ds, ?_, hdns⟩
      rw [hys]
      rw [show joinSlash ([] ++ [c]) = c from rfl, hds]
    · rw [joinSlash_append ys [c] hys (by simp)]
      refine ⟨d, ds ++ sep :: (joinSlash ys).reverse, ?_, hdns⟩
      rw [show joinSlash [c] = c from rfl]
      rw [List.reverse_append, List.reverse_cons, List.append_assoc, hds]
      rfl

/-- `dirname` of a slash-join with one more component drops exactly that
component. -/
theorem dirname_joinSlash_append (u : List (List Char)) (c : List Char)
    (hu : ∀ x ∈ u, x ≠ [] ∧ sep ∉ x) (_hcne : c ≠ []) (hcsf : sep ∉ c) :
    dirnameData (joinSlash (u ++ [c])) = joinSlash u := by
  by_cases hux : u = []
  · rw [hux]
    show dirnameData (joinSlash [c]) = joinSlash []
    rw [show joinSlash [c] = c from rfl]
    unfold dirnameData
    have hdw : c.reverse.dropWhile (· ≠ sep) = [] :=
      List.dropWhile_eq_nil_iff.mpr (slashfree_all_ne c hcsf)
    rw [hdw]
    simp [joinSlash]
  · rw [joinSlash_append u [c] hux (by simp)]
    rw [show joinSlash [c] = c from rfl]
    unfold dirnameData
    have hrev : (joinSlash u ++ sep :: c).reverse =
        c.reverse ++ sep :: (joinSlash u).reverse := by
      rw [List.reverse_append, List.reverse_cons, List.append_assoc]
      rfl
    rw [hrev]
    have hdw : (c.reverse ++ sep :: (joinSlash u).reverse).dropWhile (· ≠ sep) =
        sep :: (joinSlash u).reverse := by
      rw [List.dropWhile_append_of_pos (slashfree_all_ne c hcsf)]
      rw [List.dropWhile_cons]
      simp
    rw [hdw]
    have hhead : (sep :: (joinSlash u).reverse).reverse = joinSlash u ++ [sep] := by
      simp
    rw [hhead]
    obtain ⟨d, ds, hds, hdns⟩ := joinSlash_reverse_head u hux hu
    rw [if_pos ?side]
    case side =>
      constructor
      · simp
      · rw [List.any_append]
        have hone : (joinSlash u).any (· ≠ sep) = true := by
          rw [List.any_eq_true]
          refine ⟨d, ?_, by simpa using hdns⟩
          rw [← List.mem_reverse, hds]
          simp
        rw [hone]
        rfl
    unfold rstripSlashes
    rw [List.reverse_append]
    rw [show (([sep] : List Char).reverse ++ (joinSlash u).reverse) =
      sep :: (joinSlash u).reverse from rfl]
    rw [List.dropWhile_cons]
    rw [if_pos (by simp)]
    rw [show ((joinSlash u).reverse.dropWhile (· = sep)) = (joinSlash u).reverse from ?dw]
    · simp
    case dw =>
      rw [hds]
      rw [List.dropWhile_cons]
      simp [hdns]

/-- Characterization of successful normalization results: empty, `'.'`, or
a nonempty slash-join of clean components. -/
theorem mpnr_ok_structure (p d : String) (h : makePathNormalRelative p = .ok d) :
    d = "" ∨ d = "." ∨
      ∃ cr, cr ≠ [] ∧ (∀ c ∈ cr, cleanComp c) ∧ d.data = joinSlash cr := by
  obtain ⟨hd, h1, -⟩ := mpnr_ok_inv p d h
  rcases lstrip_normpath_structure p with hs | hs | ⟨n, cr, hcne, hclean, hdata⟩
  · exact Or.inl (hd.trans hs)
  · exact Or.inr (Or.inl (hd.trans hs))
  · right; right
    rw [show (lstripSlashes (normpath p)).data = d.data from by rw [← hd]] at hdata
    have hn0 : n = 0 := by
      by_contra hn
      obtain ⟨m, rfl⟩ : ∃ m, n = m + 1 := ⟨n - 1, by omega⟩
      rw [List.replicate_succ, List.cons_append] at hdata
      cases hrest : List.replicate m dotdot ++ cr with
      | nil =>
        rw [hrest] at hdata
        exact h1 (Or.inl (by apply String.ext; rw [hdata]; rfl))
      | cons x xs =>
        rw [hrest] at hdata
        refine h1 (Or.inr ?_)
        unfold strStartsWith
        rw [hdata, List.isPrefixOf_iff_prefix]
        exact ⟨joinSlash (x :: xs), rfl⟩
    rw [hn0] at hdata hcne
    simp only [List.replicate, List.nil_append] at hdata hcne
    exact ⟨cr, hcne, hclean, hdata⟩

/-- Every successful normalization result is a slash-join of nonempty,
slash-free components (possibly none). -/
theorem mpnr_ok_base (p d : String) (h : makePathNormalRelative p = .ok d) :
    ∃ base : List (List Char),
      (∀ x ∈ base, x ≠ [] ∧ sep ∉ x) ∧ d.data = joinSlash base := by
  rcases mpnr_ok_structure p d h with hs | hs | ⟨cr, -, hclean, hdata⟩
  · exact ⟨[], by simp, by rw [hs]; rfl⟩
  · refine ⟨[dotComp], ?_, by rw [hs]; rfl⟩
    intro x hx
    simp only [List.mem_singleton] at hx
    rw [hx]
    refine ⟨by simp [dotComp], by simp [dotComp, sep]⟩
  · exact ⟨cr, fun x hx => ⟨(hclean x hx).1, (hclean x hx).2.2.2⟩, hdata⟩

/-- The slash-join of nonempty slash-free components starts with a
non-slash character. -/
theorem joinSlash_head_ne_sep (cr : List (List Char)) (hne : cr ≠ [])
    (hc : ∀ c ∈ cr, c ≠ [] ∧ sep ∉ c) :
    ∃ ch t, joinSlash cr = ch :: t ∧ ¬ch = sep := by
  cases hcr0 : cr with
  | nil => exact absurd hcr0 hne
  | cons c0 r0 =>
    obtain ⟨hne0, hsf0⟩ := hc c0 (by rw [hcr0]; simp)
    cases hc0 : c0 with
    | nil => exact absurd hc0 hne0
    | cons ch ct =>
      obtain ⟨t, ht⟩ := joinSlash_cons_ne_nil c0 r0 ch ct hc0
      refine ⟨ch, t, hc0 ▸ ht, ?_⟩
      intro hchs
      rw [hc0, hchs] at hsf0
      exact hsf0 (by simp)

/-- `os.path.join` on normalized fields concatenates component lists. -/
theorem joinPath_data (i p2 : String) (base pcomps : List (List Char))
    (hbase : ∀ x ∈ base, x ≠ [] ∧ sep ∉ x)
    (hi : i.data = joinSlash base)
    (hpc : ∀ c ∈ pcomps, c ≠ [] ∧ sep ∉ c) (hpne : pcomps ≠ [])
    (hp : p2.data = joinSlash pcomps) :
    (joinPath i p2).data = joinSlash (base ++ pcomps) := by
  obtain ⟨ch, t, hform, hch⟩ := joinSlash_head_ne_sep pcomps hpne hpc
  have hnostart : strStartsWith p2 "/" = false := by
    unfold strStartsWith
    rw [hp, hform]
    show List.isPrefixOf ['/'] (ch :: t) = false
    rw [Bool.eq_false_iff]
    intro habs
    have hpre := List.isPrefixOf_iff_prefix.mp habs
    rw [List.cons_prefix_cons] at hpre
    exact hch hpre.1.symm
  unfold joinPath
  rw [if_neg (by simp [hnostart])]
  by_cases hbe : base = []
  · have hie : i = "" := by
      apply String.ext
      rw [hi, hbe]
      rfl
    rw [if_pos (Or.inl hie)]
    rw [String.data_append, hi, hbe, hp]
    rfl
  · have hine : ¬i = "" := by
      intro hie
      obtain ⟨d0, ds0, hds0, -⟩ := joinSlash_reverse_head base hbe hbase
      rw [hie] at hi
      rw [show ("" : String).data = [] from rfl] at hi
      rw [← hi] at hds0
      exact absurd hds0 (by simp)
    have hnoend : strEndsWith i "/" = false := by
      unfold strEndsWith
      obtain ⟨d0, ds0, hds0, hd0⟩ := joinSlash_reverse_head base hbe hbase
      show List.isPrefixOf (['/'].reverse) i.data.reverse = false
      rw [hi, hds0]
      show List.isPrefixOf ['/'] (d0 :: ds0) = false
      rw [Bool.eq_false_iff]
      intro habs
      have hpre := List.isPrefixOf_iff_prefix.mp habs
      rw [List.cons_prefix_cons] at hpre
      exact hd0 hpre.1.symm
    rw [if_neg (by
      rintro (hie | hend)
      · exact hine hie
      · rw [hnoend] at hend
        exact absurd hend (by simp))]
    rw [String.data_append, String.data_append, hi, hp]
    rw [joinSlash_append base pcomps hbe hpne, List.append_assoc]
    rfl

/-- Appending one nonempty component grows the join by at least one
character. -/
theorem joinSlash_length_append_singleton (u : List (List Char)) (c : List Char)
    (hc : c ≠ []) : (joinSlash u).length + 1 ≤ (joinSlash (u ++ [c])).length := by
  by_cases hu : u = []
  · rw [hu]
    show 0 + 1 ≤ (joinSlash [c]).length
    rw [show joinSlash [c] = c from rfl]
    have := List.length_pos.mpr hc
    omega
  · rw [joinSlash_append u [c] hu (by simp)]
    rw [List.length_append]
    simp

/-- The join length never shrinks under appending components. -/
theorem joinSlash_length_append : ∀ (v u : List (List Char)),
    (joinSlash u).length ≤ (joinSlash (u ++ v)).length := by
  intro v
  induction v using List.reverseRecOn with
  | nil => simp
  | append_singleton ws c ih =>
    intro u
    rw [← List.append_assoc]
    by_cases hc : c = []
    · subst hc
      calc (joinSlash u).length ≤ (joinSlash (u ++ ws)).length := ih u
        _ ≤ (joinSlash ((u ++ ws) ++ [[]])).length := by
          by_cases hw : u ++ ws = []
          · rw [hw]
            simp [joinSlash]
          · rw [joinSlash_append (u ++ ws) [[]] hw (by simp)]
            simp
    · calc (joinSlash u).length ≤ (joinSlash (u ++ ws)).length := ih u
        _ ≤ (joinSlash ((u ++ ws) ++ [c])).length := by
          have := joinSlash_length_append_singleton (u ++ ws) c hc
          omega

/-- The `while` loop of `MakeDirsItem.provides` visits exactly the proper
extensions of `into_dir` along `path_to_make`'s components, deepest first. -/
theorem makeDirsChain_spec : ∀ (ext : List (List Char)), ∀ (base : List (List Char))
    (i : String) (fuel : Nat),
    (∀ x ∈ base, x ≠ [] ∧ sep ∉ x) → (∀ c ∈ ext, c ≠ [] ∧ sep ∉ c) →
    i.data = joinSlash base →
    (joinSlash (base ++ ext)).length + 1 ≤ fuel →
    makeDirsChain i fuel ⟨joinSlash (base ++ ext)⟩ =
      (List.range ext.length).reverse.map (fun j => ⟨joinSlash (base ++ ext.take (j + 1))⟩) := by
  intro ext
  induction ext using List.reverseRecOn with
  | nil =>
    intro base i fuel hbase _ hi hfuel
    cases fuel with
    | zero => omega
    | succ f =>
      show makeDirsChain i (f + 1) ⟨joinSlash (base ++ [])⟩ = _
      rw [List.append_nil]
      unfold makeDirsChain
      rw [if_pos (String.ext (show (⟨joinSlash base⟩ : String).data = i.data from by
        rw [hi]))]
      simp
  | append_singleton ys c ih =>
    intro base i fuel hbase hext hi hfuel
    have hcprop : c ≠ [] ∧ sep ∉ c := hext c (by simp)
    have hysprop : ∀ x ∈ ys, x ≠ [] ∧ sep ∉ x := fun x hx => hext x (by simp [hx])
    have huprop : ∀ x ∈ base ++ ys, x ≠ [] ∧ sep ∉ x := by
      intro x hx
      rcases List.mem_append.mp hx with hx | hx
      · exact hbase x hx
      · exact hysprop x hx
    rw [← List.append_assoc] at hfuel ⊢
    have hgrow := joinSlash_length_append_singleton (base ++ ys) c hcprop.1
    have hmono := joinSlash_length_append ys base
    cases fuel with
    | zero => omega
    | succ f =>
      unfold makeDirsChain
      rw [if_neg ?hne]
      case hne =>
        intro heq
        have hdat := congrArg String.data heq
        rw [hi] at hdat
        have := congrArg List.length hdat
        simp only at this
        omega
      have hdirname : dirname ⟨joinSlash ((base ++ ys) ++ [c])⟩ = ⟨joinSlash (base ++ ys)⟩ := by
        apply String.ext
        show dirnameData (joinSlash ((base ++ ys) ++ [c])) = _
        rw [dirname_joinSlash_append (base ++ ys) c huprop hcprop.1 hcprop.2]
      rw [hdirname]
      rw [ih base i f hbase hysprop hi (by omega)]
      rw [show ((ys ++ [c]).length) = ys.length + 1 from by simp]
      rw [List.range_succ, List.reverse_append]
      rw [show (List.reverse [ys.length]) = [ys.length] from rfl]
      rw [List.singleton_append, List.map_cons]
      congr 1
      · rw [List.take_of_length_le (by simp)]
        rw [List.append_assoc]
      · apply List.map_congr_left
        intro j hj
        have hj' : j < ys.length := List.mem_range.mp (List.mem_reverse.mp hj)
        rw [List.take_eq_left_iff.mpr (Or.inr (by omega))]

/-- C5: `MakeDirsItem.provides` yields exactly one `ProvidesDirectory` for
each intermediate directory from the join of `into_dir` and `path_to_make`
down to, but not including, `into_dir`; `requires` is exactly
`require_directory(into_dir)`.  Stated for a `path_to_make` with genuine
components (nonempty and not `'.'`). -/
theorem c5_make_dirs_provides (intoDir ptm : String) (item : MakeDirsItem)
    (h : mkMakeDirsItem intoDir ptm = .ok item)
    (hne : item.pathToMake ≠ "") (hdot : item.pathToMake ≠ ".") :
    item.provides =
      (specIntermediateDirs item.intoDir item.pathToMake).map Provide.directory ∧
    item.requires = [Require.directory item.intoDir] := by
  unfold mkMakeDirsItem at h
  cases hi : makePathNormalRelative intoDir with
  | error e =>
    rw [hi] at h
    exact absurd h (by simp [Bind.bind, Except.bind])
  | ok i =>
    rw [hi] at h
    cases hp2 : makePathNormalRelative ptm with
    | error e =>
      rw [hp2] at h
      exact absurd h (by simp [Bind.bind, Except.bind])
    | ok p2 =>
      rw [hp2] at h
      simp only [Bind.bind, Except.bind, Except.ok.injEq] at h
      subst h
      obtain ⟨base, hbase, hibase⟩ := mpnr_ok_base intoDir i hi
      rcases mpnr_ok_structure ptm p2 hp2 with hs | hs | ⟨pcomps, hpne, hpclean, hpdata⟩
      · exact absurd hs hne
      · exact absurd hs hdot
      · have hpweak : ∀ c ∈ pcomps, c ≠ [] ∧ sep ∉ c :=
          fun c hc => ⟨(hpclean c hc).1, (hpclean c hc).2.2.2⟩
        have hjdata : (joinPath i p2).data = joinSlash (base ++ pcomps) :=
          joinPath_data i p2 base pcomps hbase hibase hpweak hpne hpdata
        have hjoin : joinPath i p2 = ⟨joinSlash (base ++ pcomps)⟩ := String.ext hjdata
        constructor
        · show (makeDirsChain i ((joinPath i p2).data.length + 1) (joinPath i p2)).map
            Provide.directory = _
          rw [hjoin]
          rw [show ((⟨joinSlash (base ++ pcomps)⟩ : String)).data =
            joinSlash (base ++ pcomps) from rfl]
          rw [makeDirsChain_spec pcomps base i ((joinSlash (base ++ pcomps)).length + 1)
            hbase hpweak hibase (by omega)]
          show _ = (specIntermediateDirs i p2).map Provide.directory
          unfold specIntermediateDirs
          rw [show splitSlash p2.data = pcomps from by
            rw [hpdata]
            exact splitSlash_joinSlash pcomps hpne (fun c hc => (hpweak c hc).2)]
          congr 1
          apply List.map_congr_left
          intro j hj
          have hjlt : j < pcomps.length := List.mem_range.mp (List.mem_reverse.mp hj)
          have htake_ne : pcomps.take (j + 1) ≠ [] := by
            intro habs
            have := congrArg List.length habs
            rw [List.length_take] at this
            simp only [List.length_nil] at this
            omega
          have htake_prop : ∀ c ∈ pcomps.take (j + 1), c ≠ [] ∧ sep ∉ c :=
            fun c hc => hpweak c (List.take_subset _ _ hc)
          apply Eq.symm
          apply String.ext
          rw [joinPath_data i ⟨joinSlash (pcomps.take (j + 1))⟩ base (pcomps.take (j + 1))
            hbase hibase htake_prop htake_ne rfl]
        · rfl

/-- C5 witness: `MakeDirs(into_dir='/foo/bar', path_to_make='baz/qux')`
provides `foo/bar/baz/qux` then `foo/bar/baz`, and requires `foo/bar`. -/
theorem c5_make_dirs_provides_witness :
    mkMakeDirsItem "/foo/bar" "baz/qux" = .ok ⟨"foo/bar", "baz/qux"⟩ ∧
    (MakeDirsItem.mk "foo/bar" "baz/qux").pathToMake ≠ "" ∧
    (MakeDirsItem.mk "foo/bar" "baz/qux").pathToMake ≠ "." ∧
    ((MakeDirsItem.mk "foo/bar" "baz/qux").provides =
       (specIntermediateDirs (MakeDirsItem.mk "foo/bar" "baz/qux").intoDir
         (MakeDirsItem.mk "foo/bar" "baz/qux").pathToMake).map Provide.directory ∧
     (MakeDirsItem.mk "foo/bar" "baz/qux").requires =
       [Require.directory (MakeDirsItem.mk "foo/bar" "baz/qux").intoDir]) :=
  ⟨rfl, by decide, by decide,
    c5_make_dirs_provides "/foo/bar" "baz/qux" ⟨"foo/bar", "baz/qux"⟩ rfl
      (by decide) (by decide)⟩

/-- Python's `startswith` as a `take`-equation. -/
theorem startsWith_take (s pre : String) :
    strStartsWith s pre = true ↔ s.data.take pre.data.length = pre.data := by
  unfold strStartsWith
  rw [List.isPrefixOf_iff_prefix, List.prefix_iff_eq_take]
  exact eq_comm

/-- C3: item construction normalizes the path with `normpath` plus
`lstrip('/')`; it fails with `IllegalPath` exactly when the normalized
result is `'..'` or begins with `'../'`, with `ReservedMetaPath` exactly
when (that check passing) the result plus `'/'` begins with `'meta/'`, and
otherwise returns the normalized result; in particular
`RemovePathItem(path='meta/anything')` fails at construction. -/
theorem c3_normalization_failures :
    (∀ p : String,
      makePathNormalRelative p = .error .illegalPath ↔
        (lstripSlashes (normpath p) = ".." ∨
          (lstripSlashes (normpath p)).data.take 3 = ['.', '.', '/'])) ∧
    (∀ p : String,
      makePathNormalRelative p = .error .reservedMetaPath ↔
        (¬(lstripSlashes (normpath p) = ".." ∨
            (lstripSlashes (normpath p)).data.take 3 = ['.', '.', '/']) ∧
          ((lstripSlashes (normpath p)).data ++ ['/']).take 5 =
            ['m', 'e', 't', 'a', '/'])) ∧
    (∀ p d, makePathNormalRelative p = .ok d → d = lstripSlashes (normpath p)) ∧
    mkRemovePathItem "meta/anything" RemovePathAction.assert_exists =
      .error NormError.reservedMetaPath := by
  have hbr1 : ∀ d : String,
      strStartsWith d "../" = true ↔ d.data.take 3 = ['.', '.', '/'] := by
    intro d
    rw [startsWith_take]
    exact Iff.rfl
  have hbr2 : ∀ d : String,
      strStartsWith (d ++ "/") META_DIR = true ↔
        (d.data ++ ['/']).take 5 = ['m', 'e', 't', 'a', '/'] := by
    intro d
    rw [startsWith_take]
    exact Iff.rfl
  refine ⟨?_, ?_, fun p d h => (mpnr_ok_inv p d h).1, rfl⟩
  · intro p
    simp only [makePathNormalRelative]
    by_cases c1 : lstripSlashes (normpath p) = ".." ∨
        strStartsWith (lstripSlashes (normpath p)) "../" = true
    · rw [if_pos c1]
      constructor
      · intro _
        rcases c1 with c1 | c1
        · exact Or.inl c1
        · exact Or.inr ((hbr1 _).mp c1)
      · intro _
        rfl
    · rw [if_neg c1]
      constructor
      · intro habs
        by_cases c2 : strStartsWith (lstripSlashes (normpath p) ++ "/") META_DIR = true
        · rw [if_pos c2] at habs
          exact absurd habs (by simp)
        · rw [if_neg c2] at habs
          exact absurd habs (by simp)
      · intro hor
        exfalso
        apply c1
        rcases hor with hh | hh
        · exact Or.inl hh
        · exact Or.inr ((hbr1 _).mpr hh)
  · intro p
    simp only [makePathNormalRelative]
    by_cases c1 : lstripSlashes (normpath p) = ".." ∨
        strStartsWith (lstripSlashes (normpath p)) "../" = true
    · rw [if_pos c1]
      constructor
      · intro habs
        exact absurd habs (by simp)
      · rintro ⟨hnot, -⟩
        exfalso
        apply hnot
        rcases c1 with c1 | c1
        · exact Or.inl c1
        · exact Or.inr ((hbr1 _).mp c1)
    · rw [if_neg c1]
      by_cases c2 : strStartsWith (lstripSlashes (normpath p) ++ "/") META_DIR = true
      · rw [if_pos c2]
        constructor
        · intro _
          refine ⟨?_, (hbr2 _).mp c2⟩
          intro hor
          apply c1
          rcases hor with hh | hh
          · exact Or.inl hh
          · exact Or.inr ((hbr1 _).mpr hh)
        · intro _
          rfl
      · rw [if_neg c2]
        constructor
        · intro habs
          exact absurd habs (by simp)
        · rintro ⟨-, hmeta⟩
          exact absurd ((hbr2 _).mpr hmeta) c2

/-- C3 witness: concrete normalization outcomes for each branch. -/
theorem c3_normalization_failures_witness :
    makePathNormalRelative "a/../../b" = .error .illegalPath ∧
    makePathNormalRelative "meta/x" = .error .reservedMetaPath ∧
    (makePathNormalRelative "/foo//bar/./baz/" = .ok "foo/bar/baz" →
      ("foo/bar/baz" : String) = lstripSlashes (normpath "/foo//bar/./baz/")) ∧
    mkRemovePathItem "meta/anything" RemovePathAction.assert_exists =
      .error NormError.reservedMetaPath :=
  ⟨(c3_normalization_failures.1 "a/../../b").mpr (Or.inr rfl),
   (c3_normalization_failures.2.1 "meta/x").mpr (by constructor <;> decide),
   fun h => c3_normalization_failures.2.2.1 "/foo//bar/./baz/" "foo/bar/baz" h,
   c3_normalization_failures.2.2.2⟩

end FsImage
